import Mathlib

/-!
Verification of the rule-language compiler in
`src/cmd/internal/ssa/rulegen/rulegen.go`.

The Go program reads a rule file, groups rules by the operator tag of the
left-hand pattern, and for each rule emits Go source text for a matcher
(`genMatch0`) and a rewriter (`genResult0`), tokenizing s-expressions with a
bracket-aware splitter (`split`).

The shallow embedding below mirrors the source function by function.
Strings are embedded as `List Char` (`Str`): every Go string operation
(`s[i]`, `s[1:len(s)-1]`, `strings.TrimSpace`, ...) becomes the evident
list operation.  Each `fmt.Fprintf` of the generator becomes a constructor
of `Stmt` carrying the format's `%s`/`%d` arguments, so the generated text
is modelled as a `List Stmt`.  A Go `panic` / `log.Fatalf` becomes `none`.
General recursion (over tokens returned by `split`, which are substrings)
is embedded with an explicit fuel parameter; every claim is either stated
for arbitrary fuel or conditioned on the computation returning `some`.
-/

namespace Rulegen

/-- Strings of the Go program, as lists of characters. -/
abbrev Str := List Char

/-- The four opening delimiter characters of `split` (case `'(', '{', '[', '<'`). -/
def isOpenDelim (c : Char) : Bool :=
  c = '(' || c = '\x7b' || c = '[' || c = '<'

/-- The four closing delimiter characters of `split` (case `')', '}', ']', '>'`). -/
def isCloseDelim (c : Char) : Bool :=
  c = ')' || c = '\x7d' || c = ']' || c = '>'

/-- The whitespace characters `split` breaks on (case `' ', '\t'`). -/
def isWS (c : Char) : Bool := c = ' ' || c = '\t'

/-- Contribution of one character to `split`'s depth counter `d`. -/
def delta (c : Char) : Int :=
  if isOpenDelim c then 1 else if isCloseDelim c then -1 else 0

/-- Total depth change over a string: the value of `split`'s counter after
scanning it. -/
def depthSum (s : Str) : Int := (s.map delta).sum

/-- Go `unicode.IsSpace`: the Unicode white-space code points (Latin-1:
TAB, LF, VT, FF, CR, space, NEL, NBSP; beyond: OGHAM SPACE MARK, the
EN QUAD..HAIR SPACE run, LINE/PARAGRAPH SEPARATOR, NARROW NO-BREAK SPACE,
MEDIUM MATHEMATICAL SPACE, IDEOGRAPHIC SPACE). -/
def goIsSpace (c : Char) : Bool :=
  (9 ≤ c.toNat && c.toNat ≤ 13) || c.toNat = 32 || c.toNat = 0x85 ||
    c.toNat = 0xA0 || c.toNat = 0x1680 ||
    (0x2000 ≤ c.toNat && c.toNat ≤ 0x200A) || c.toNat = 0x2028 ||
    c.toNat = 0x2029 || c.toNat = 0x202F || c.toNat = 0x205F ||
    c.toNat = 0x3000

/-- Model of `strings.TrimSpace`: trim `unicode.IsSpace` characters from
both ends. -/
def trim (s : Str) : Str :=
  ((s.dropWhile goIsSpace).reverse.dropWhile goIsSpace).reverse

/-- Model of Go `strings.Trim(s, cutset)`: drop characters of `cutset` from
both ends. -/
def trimSet (cutset : Str) (s : Str) : Str :=
  ((s.dropWhile (cutset.contains ·)).reverse.dropWhile (cutset.contains ·)).reverse

/-- One pass of `split`'s inner `for i := 0; i < len(s); i++` loop, carrying
the depth `d` and the `nonsp` flag.  It either finds the first cut position
(a space or tab at depth 0 after a non-space character) and returns
`(s[:i], s[i:])`, or scans the whole string and returns the final
`(d, nonsp)`. -/
def scan : Str → Int → Bool → (Str × Str) ⊕ (Int × Bool)
  | [], d, nonsp => .inr (d, nonsp)
  | c :: rest, d, nonsp =>
    if isOpenDelim c then
      match scan rest (d + 1) nonsp with
      | .inl (pre, post) => .inl (c :: pre, post)
      | .inr r => .inr r
    else if isCloseDelim c then
      match scan rest (d - 1) nonsp with
      | .inl (pre, post) => .inl (c :: pre, post)
      | .inr r => .inr r
    else if isWS c then
      if d = 0 && nonsp then .inl ([], c :: rest)
      else
        match scan rest d nonsp with
        | .inl (pre, post) => .inl (c :: pre, post)
        | .inr r => .inr r
    else
      match scan rest d true with
      | .inl (pre, post) => .inl (c :: pre, post)
      | .inr r => .inr r

/-- The outer `for s != ""` loop of `split`.  A cut appends the trimmed
prefix and continues on the rest; a completed scan checks the depth counter
(`panic` = `none`) and appends the trimmed remainder when `nonsp` is set.
Fuel bounds the number of outer iterations; `split` below supplies enough. -/
def splitGo : Nat → Str → Option (List Str)
  | 0, _ => none
  | fuel + 1, s =>
    if s = [] then some [] else
    match scan s 0 false with
    | .inl (pre, post) => (splitGo fuel post).map (trim pre :: ·)
    | .inr (d, nonsp) =>
      if d ≠ 0 then none
      else if nonsp then some [trim s] else some []

/-- `func split(s string) []string` of rulegen.go; `none` models the
`panic("imbalanced expression")`. -/
def split (s : Str) : Option (List Str) := splitGo (s.length + 1) s

/-- Decimal digit character, `'0' + n`. -/
def digitChar (n : Nat) : Char := Char.ofNat (48 + n)

/-- Fuelled decimal printer (big-endian digits). -/
def natCharsAux : Nat → Nat → List Char
  | 0, _ => []
  | fuel + 1, n =>
    if n < 10 then [digitChar n]
    else natCharsAux fuel (n / 10) ++ [digitChar (n % 10)]

/-- The decimal numeral `fmt.Fprintf`'s `%d` prints for `n`. -/
def natChars (n : Nat) : List Char := natCharsAux (n + 1) n

/-- The fresh value name `fmt.Sprintf("v%d", alloc)` of `genResult0`. -/
def vname (n : Nat) : Str := 'v' :: natChars n

/-- The reference `fmt.Sprintf("%s.Args[%d]", v, argnum)` to a positional
child of the value `v`. -/
def childRef (v : Str) (n : Nat) : Str :=
  v ++ ".Args[".data ++ natChars n ++ "]".data

/-- One emitted line of generated Go text: one constructor per
`fmt.Fprintf` format string of `genMatch0` / `genResult0`. -/
inductive Stmt where
  /-- `"if %s != %s %s"` (repeated-variable check; `!=` is pointer
  inequality on `*Value`, and `%s` at the end is the fail/goto block). -/
  | ifNeGoto (a b fail : Str)
  /-- `"if %s.Op != Op%s %s"` (operator tag guard). -/
  | ifOpNeGoto (v op fail : Str)
  /-- `"if %s.Type != %s %s"` (type-restriction guard). -/
  | ifTypeNeGoto (v t fail : Str)
  /-- `"if %s.Aux != %s %s"` (aux-restriction guard). -/
  | ifAuxNeGoto (v x fail : Str)
  /-- `"if %s.Args[%d] != %s %s"` (literal-pin guard on a positional child). -/
  | ifArgNeGoto (v : Str) (i : Nat) (code fail : Str)
  /-- `"%s := %s\n"` (bind an ordinary pattern variable). -/
  | assign (name rhs : Str)
  /-- `"%s := %s.Type\n"` (bind a type variable). -/
  | assignType (name v : Str)
  /-- `"%s := %s.Aux\n"` (bind an aux variable). -/
  | assignAux (name v : Str)
  /-- `"v.Op = Op%s\n"` (top-level result: overwrite the matched value's tag). -/
  | setOpV (op : Str)
  /-- `"v.Aux = nil\n"` (top-level result: clear the auxiliary field). -/
  | clearAuxV
  /-- `"v.Args = v.argstorage[:0]\n"` (top-level result: reset the children). -/
  | resetArgsV
  /-- `"%s := v.Block.NewValue(Op%s, TypeInvalid, nil)\n"` (allocate a fresh
  value with the provisional invalid type). -/
  | newValue (v op : Str)
  /-- `"%s.Type = %s\n"` (explicit type assignment). -/
  | setTypeField (v t : Str)
  /-- `"%s.Aux = %s\n"` (aux assignment). -/
  | setAuxField (v x : Str)
  /-- `"%s.AddArg(%s)\n"` (append a child). -/
  | addArg (v x : Str)
  /-- `"%s.SetType()\n"` (derive the type from operator and children). -/
  | setTypeCall (v : Str)
deriving DecidableEq

/-- The variable map `m map[string]string` of `genMatch0`, as an
association list; entries are only ever added for absent keys, so lookup of
the first hit agrees with the Go map. -/
abbrev Env := List (Str × Str)

mutual

/-- `func genMatch0(w, match, v, fail, m, top)` of rulegen.go.  Returns the
emitted statements and the updated variable map; `none` models a Go panic
(string index out of range, or `split`'s panic).  The fuel only bounds the
recursion into sub-patterns: the bare-variable case ignores it. -/
def genMatch0 : Nat → Str → Str → Str → Env → Bool → Option (List Stmt × Env)
  | fuel, mtch, v, fail, m, top =>
    match mtch with
    | [] => none
    | c :: _ =>
      -- the source tests `match[0] != '('`; the branches are swapped here
      if c = '(' then
        match fuel with
        | 0 => none
        | fuel + 1 =>
          if mtch.length < 2 then none else
          match split ((mtch.drop 1).dropLast) with
          | none => none
          | some [] => none
          | some (s0 :: args) =>
            match genMatchArgs fuel args v fail m 0 with
            | none => none
            | some (st, m') =>
              some ((if top then [] else [.ifOpNeGoto v s0 fail]) ++ st, m')
      else
        match m.lookup mtch with
        | some x => some ([.ifNeGoto v x fail], m)
        | none => some ([.assign mtch v], (mtch, v) :: m)

/-- The `for _, a := range s[1:]` loop of `genMatch0`, with the positional
counter `argnum`. -/
def genMatchArgs : Nat → List Str → Str → Str → Env → Nat → Option (List Stmt × Env)
  | _, [], _, _, m, _ => some ([], m)
  | fuel, a :: rest, v, fail, m, argnum =>
    match fuel with
    | 0 => none
    | fuel + 1 =>
      match a with
      | [] => none
      | c :: _ =>
        if c = '<' then
          if a.length < 2 then none else
          match (a.drop 1).dropLast with
          | [] => none
          | tc :: ts =>
            if tc = '\x7b' then
              if (tc :: ts).length < 2 then none else
              (genMatchArgs fuel rest v fail m argnum).map
                (fun r => (.ifTypeNeGoto v (((tc :: ts).drop 1).dropLast) fail :: r.1, r.2))
            else
              match m.lookup (tc :: ts) with
              | some u =>
                (genMatchArgs fuel rest v fail m argnum).map
                  (fun r => (.ifTypeNeGoto v u fail :: r.1, r.2))
              | none =>
                (genMatchArgs fuel rest v fail ((tc :: ts, v ++ ".Type".data) :: m) argnum).map
                  (fun r => (.assignType (tc :: ts) v :: r.1, r.2))
        else if c = '[' then
          if a.length < 2 then none else
          match (a.drop 1).dropLast with
          | [] => none
          | xc :: xs =>
            if xc = '\x7b' then
              if (xc :: xs).length < 2 then none else
              (genMatchArgs fuel rest v fail m argnum).map
                (fun r => (.ifAuxNeGoto v (((xc :: xs).drop 1).dropLast) fail :: r.1, r.2))
            else
              match m.lookup (xc :: xs) with
              | some y =>
                (genMatchArgs fuel rest v fail m argnum).map
                  (fun r => (.ifAuxNeGoto v y fail :: r.1, r.2))
              | none =>
                (genMatchArgs fuel rest v fail ((xc :: xs, v ++ ".Aux".data) :: m) argnum).map
                  (fun r => (.assignAux (xc :: xs) v :: r.1, r.2))
        else if c = '\x7b' then
          if a.length < 2 then none else
          (genMatchArgs fuel rest v fail m (argnum + 1)).map
            (fun r => (.ifArgNeGoto v argnum ((a.drop 1).dropLast) fail :: r.1, r.2))
        else
          match genMatch0 fuel a (childRef v argnum) fail m false with
          | none => none
          | some (st1, m1) =>
            (genMatchArgs fuel rest v fail m1 (argnum + 1)).map
              (fun r => (st1 ++ r.1, r.2))

end

/-- `func genMatch(w, match, fail)`: compile a whole match expression
against the matched value `v` with an empty variable map. -/
def genMatch (fuel : Nat) (mtch fail : Str) : Option (List Stmt × Env) :=
  genMatch0 fuel mtch "v".data fail [] true

mutual

/-- `func genResult0(w, result, alloc, top)` of rulegen.go.  Returns the
emitted statements, the updated allocation counter and the reference string
the caller appends as a child; `none` models a Go panic. -/
def genResult0 : Nat → Str → Nat → Bool → Option (List Stmt × Nat × Str)
  | fuel, result, alloc, top =>
    match result with
    | [] => none
    | c :: _ =>
      -- the source tests `result[0] != '('`; the branches are swapped here
      if c = '(' then
        match fuel with
        | 0 => none
        | fuel + 1 =>
          if result.length < 2 then none else
          match split ((result.drop 1).dropLast) with
          | none => none
          | some [] => none
          | some (s0 :: args) =>
            if top then
              match genResultArgs fuel args "v".data alloc false with
              | none => none
              | some (st, alloc2, nt2) =>
                some ([Stmt.setOpV s0, Stmt.clearAuxV, Stmt.resetArgsV] ++ st
                        ++ (if nt2 then [Stmt.setTypeCall "v".data] else []),
                      alloc2, "v".data)
            else
              match genResultArgs fuel args (vname alloc) (alloc + 1) true with
              | none => none
              | some (st, alloc2, nt2) =>
                some (Stmt.newValue (vname alloc) s0 :: st
                        ++ (if nt2 then [Stmt.setTypeCall (vname alloc)] else []),
                      alloc2, vname alloc)
      else some ([], alloc, result)

/-- The `for _, a := range s[1:]` loop of `genResult0`, threading the
allocation counter and the `needsType` flag. -/
def genResultArgs : Nat → List Str → Str → Nat → Bool → Option (List Stmt × Nat × Bool)
  | _, [], _, alloc, nt => some ([], alloc, nt)
  | fuel, a :: rest, v, alloc, nt =>
    match fuel with
    | 0 => none
    | fuel + 1 =>
      match a with
      | [] => none
      | c :: _ =>
        if c = '<' then
          if a.length < 2 then none else
          match (a.drop 1).dropLast with
          | [] => none
          | tc :: ts =>
            if tc = '\x7b' then
              if (tc :: ts).length < 2 then none else
              (genResultArgs fuel rest v alloc false).map
                (fun r => (Stmt.setTypeField v (((tc :: ts).drop 1).dropLast) :: r.1, r.2.1, r.2.2))
            else
              (genResultArgs fuel rest v alloc false).map
                (fun r => (Stmt.setTypeField v (tc :: ts) :: r.1, r.2.1, r.2.2))
        else if c = '[' then
          if a.length < 2 then none else
          match (a.drop 1).dropLast with
          | [] => none
          | xc :: xs =>
            if xc = '\x7b' then
              if (xc :: xs).length < 2 then none else
              (genResultArgs fuel rest v alloc nt).map
                (fun r => (Stmt.setAuxField v (((xc :: xs).drop 1).dropLast) :: r.1, r.2.1, r.2.2))
            else
              (genResultArgs fuel rest v alloc nt).map
                (fun r => (Stmt.setAuxField v (xc :: xs) :: r.1, r.2.1, r.2.2))
        else if c = '\x7b' then
          if a.length < 2 then none else
          (genResultArgs fuel rest v alloc nt).map
            (fun r => (Stmt.addArg v ((a.drop 1).dropLast) :: r.1, r.2.1, r.2.2))
        else
          match genResult0 fuel a alloc false with
          | none => none
          | some (st1, alloc1, x) =>
            (genResultArgs fuel rest v alloc1 nt).map
              (fun r => (st1 ++ Stmt.addArg v x :: r.1, r.2.1, r.2.2))

end

/-- `func genResult(w, result)`: compile a whole result expression with a
fresh allocation counter, at top level. -/
def genResult (fuel : Nat) (result : Str) : Option (List Stmt × Nat × Str) :=
  genResult0 fuel result 0 true

/-- Go `strings.Split(rule, "->")`: split at every (non-overlapping,
leftmost-first) occurrence of the two-character arrow. -/
def splitArrow : Str → List Str
  | [] => [[]]
  | '-' :: '>' :: rest => [] :: splitArrow rest
  | c :: rest =>
    match splitArrow rest with
    | [] => [[c]]
    | h :: t => (c :: h) :: t

/-- Number of (non-overlapping, leftmost-first) occurrences of the arrow
`->` in a string; this is the spec's "the arrow is absent or occurs more
than once" counted exactly. -/
def countArrow : Str → Nat
  | [] => 0
  | '-' :: '>' :: rest => countArrow rest + 1
  | _ :: rest => countArrow rest

/-- Go `strings.Index(s, "&&")` followed by the two slices: `some (before,
after)` at the first occurrence, `none` when absent. -/
def splitAmp : Str → Option (Str × Str)
  | [] => none
  | '&' :: '&' :: rest => some ([], rest)
  | c :: rest => (splitAmp rest).map (fun r => (c :: r.1, r.2))

/-- The per-rule decomposition of `main` (lines 102–116): split at `->`
(`log.Fatalf "no arrow in rule"` = `none` unless exactly two segments),
trim, then split the left segment at the first `&&` into match and
condition (empty condition when absent).  Returns
`(match, cond, result)`. -/
def splitRule (rule : Str) : Option (Str × Str × Str) :=
  match splitArrow rule with
  | [l, r] =>
    let lhs := trimSet " \t".data l
    let res := trimSet " \t\n".data r
    match splitAmp lhs with
    | some (m0, c0) => some (trimSet " \t".data m0, trimSet " \t".data c0, res)
    | none => some (lhs, [], res)
  | _ => none

/-- Comment stripping of the reader (line 68): truncate at the first
occurrence of `//`. -/
def dropComment : Str → Str
  | '/' :: '/' :: _ => []
  | c :: rest => c :: dropComment rest
  | [] => []

/-- Go `strings.Split(line, " ")` (single-space separator). -/
def splitSpace : Str → List Str
  | [] => [[]]
  | ' ' :: rest => [] :: splitSpace rest
  | c :: rest =>
    match splitSpace rest with
    | [] => [[c]]
    | h :: t => (c :: h) :: t

/-- The group key of a rule line: `strings.Split(line, " ")[0][1:]` — the
first space-separated token with its leading structural character
stripped. -/
def keyOf (line : Str) : Str := ((splitSpace line).headD []).drop 1

/-- `oprules[op] = append(oprules[op], line)` on an association list that
keeps first-insertion key order (the key order is irrelevant to the
program, which sorts the keys before use). -/
def addRule (m : List (Str × List Str)) (op : Str) (rule : Str) : List (Str × List Str) :=
  match m with
  | [] => [(op, [rule])]
  | (k, rs) :: t => if k = op then (k, rs ++ [rule]) :: t else (k, rs) :: addRule t op rule

/-- The reader's per-line filter (lines 66–76): strip the comment, trim,
drop the line if empty. -/
def processedLines (lines : List Str) : List Str :=
  lines.filterMap (fun line =>
    let l := trim (dropComment line)
    if l = [] then none else some l)

/-- The rule-reading loop (lines 66–79): group the processed lines by
their key. -/
def readRules (lines : List Str) : List (Str × List Str) :=
  (processedLines lines).foldl (fun m l => addRule m (keyOf l) l) []

/-- Byte-lexicographic string order, as `sort.Strings` compares. -/
def strLeB : Str → Str → Bool
  | [], _ => true
  | _ :: _, [] => false
  | a :: as, b :: bs =>
    if a.toNat < b.toNat then true
    else if b.toNat < a.toNat then false
    else strLeB as bs

/-- One rule as compiled by the body of `main`'s rule loop (lines
101–136): the rule text and its three segments, the rule's number (used in
the `goto end%d` fail target), and the match and result statements. -/
structure CompiledRule where
  rule : Str
  matchStr : Str
  condStr : Str
  resultStr : Str
  num : Nat
  matchStmts : List Stmt
  resultStmts : List Stmt
deriving DecidableEq

/-- The fail block `fmt.Sprintf("{\ngoto end%d\n}\n", rulenum)`. -/
def failFor (n : Nat) : Str :=
  "\x7b\ngoto end".data ++ natChars n ++ "\n\x7d\n".data

/-- Compile one rule (split, match, result), `none` on any fatal
error/panic. -/
def compileRule (fuel : Nat) (rule : Str) (rulenum : Nat) : Option CompiledRule :=
  match splitRule rule with
  | none => none
  | some (m0, c0, r0) =>
    match genMatch fuel m0 (failFor rulenum), genResult fuel r0 with
    | some (mst, _), some (rst, _, _) =>
      some ⟨rule, m0, c0, r0, rulenum, mst, rst⟩
    | _, _ => none

/-- Compile the rules of one group in order, threading the global rule
number. -/
def compileList (fuel : Nat) : List Str → Nat → Option (List CompiledRule × Nat)
  | [], n => some ([], n)
  | r :: rs, n =>
    match compileRule fuel r n with
    | none => none
    | some cr => (compileList fuel rs (n + 1)).map (fun p => (cr :: p.1, p.2))

/-- Emit the groups in the given key order (lines 99–138). -/
def compileGroups (fuel : Nat) (oprules : List (Str × List Str)) :
    List Str → Nat → Option (List (Str × List CompiledRule))
  | [], _ => some []
  | op :: ops, n =>
    match oprules.lookup op with
    | none => none
    | some rules =>
      match compileList fuel rules n with
      | none => none
      | some (crs, n') =>
        (compileGroups fuel oprules ops n').map ((op, crs) :: ·)

/-- The lexicographic key sort of `sort.Strings` (any correct sort of the
distinct keys produces the same list). -/
def sortStrings (l : List Str) : List Str :=
  List.insertionSort (fun a b => strLeB a b = true) l

/-- The whole generation pipeline of `main` on the rule-file lines: read
and group the rules, sort the group keys lexicographically
(`sort.Strings`), compile every group. -/
def genFile (fuel : Nat) (lines : List Str) : Option (List (Str × List CompiledRule)) :=
  let oprules := readRules lines
  compileGroups fuel oprules (sortStrings (oprules.map Prod.fst)) 0

/-- Modelled from the spec (§4.6, §6): execution of the generated
procedure's control flow, which this repository only emits as text.  The
emitted `switch v.Op` selects the single case whose tag equals the Term's
tag; inside it the rule blocks run in order, a block whose guards all pass
ends in `return true` (its rule is applied), a failed guard jumps to the
block's `end%d` label; after the last block the procedure reaches
`return false`.  `pred` abstracts whether a rule block's guards pass;
the result is the applied rule, or `none` for "no rule applied". -/
def execSwitch (groups : List (Str × List CompiledRule)) (pred : CompiledRule → Bool)
    (tag : Str) : Option CompiledRule :=
  match groups.find? (fun g => g.1 == tag) with
  | none => none
  | some (_, crs) => crs.find? pred

/-- A character that is neither a delimiter nor `split`'s whitespace: the
characters that set `split`'s `nonsp` flag. -/
def sounding (c : Char) : Bool := !isOpenDelim c && !isCloseDelim c && !isWS c

/-- Modelled from the spec (§8, C9's wording): the top-level
whitespace-delimited fields of a string — maximal runs separated by
whitespace at delimiter depth zero, the depth counted by the same shared
counter as `split`'s. -/
def fieldsAux : Str → Int → Str → List Str
  | [], _, cur => if cur = [] then [] else [cur]
  | c :: rest, d, cur =>
    if isWS c && d = 0 then
      if cur = [] then fieldsAux rest d []
      else cur :: fieldsAux rest d []
    else fieldsAux rest (d + delta c) (cur ++ [c])

/-- The top-level fields of a string (depth counter starting at zero). -/
def topFields (s : Str) : List Str := fieldsAux s 0 []

/-- Modelled from the spec (C9's wording): the whitespace-normalized form
of an input — its top-level fields joined by single spaces, i.e. every
top-level whitespace run collapsed to one space and boundary whitespace
dropped, all other content preserved in order. -/
def wsNormalize (s : Str) : Str := List.intercalate [' '] (topFields s)

/-- The prefix of a string up to (not including) its first depth-zero
whitespace character, and the rest from that character on; proof-side
companion of `scan`. -/
def fieldSpan : Str → Int → Str × Str
  | [], _ => ([], [])
  | c :: rest, d =>
    if isWS c && d = 0 then ([], c :: rest)
    else
      match fieldSpan rest (d + delta c) with
      | (a, b) => (c :: a, b)


/-- An argument token that is not a type constraint (does not start with
`<`); `needsType` survives the loop exactly on such arguments. -/
def noTypeHead (a : Str) : Bool := decide (a.head? ≠ some '<')

/-- Decimal value of a digit string (proof-side inverse of `natChars`). -/
def decVal (l : List Char) : Nat :=
  l.foldl (fun acc c => 10 * acc + (c.toNat - 48)) 0

/-! ## Theorems -/

/-- Dropping the last element of `c :: (l ++ [b])`. -/
theorem dropLast_cons_concat (c : Char) (l : Str) (b : Char) :
    (c :: (l ++ [b])).dropLast = c :: l := by
  rw [← List.cons_append, List.dropLast_concat]

/-- Dropping the last element of `c :: (l ++ [a, b])`. -/
theorem dropLast_cons_concat_two (c : Char) (l : Str) (a b : Char) :
    (c :: (l ++ [a, b])).dropLast = c :: (l ++ [a]) := by
  have h : c :: (l ++ [a, b]) = (c :: (l ++ [a])) ++ [b] := by simp
  rw [h, List.dropLast_concat]

/-- C3: within one rule's match compilation, the first occurrence of an
ordinary variable name (any token not starting `(`) compiles to a binding
of that name to the current reference, and a later occurrence of the same
name compiles to exactly one reference-inequality guard against the bound
reference, jumping to the per-rule fail target — the environment is not
re-bound and no other code is emitted.  Per the source comment (lines
176–179), the emitted `!=` is pointer equality on `*Value`, not a
structural comparison. -/
theorem c3_repeated_variable_binds_then_checks (f₁ f₂ : Nat) (v₁ v₂ fail : Str)
    (m : Env) (top₁ top₂ : Bool) (c : Char) (nr : Str)
    (hc : c ≠ '(') (hm : m.lookup (c :: nr) = none) :
    genMatch0 f₁ (c :: nr) v₁ fail m top₁ =
      some ([.assign (c :: nr) v₁], ((c :: nr), v₁) :: m) ∧
    genMatch0 f₂ (c :: nr) v₂ fail (((c :: nr), v₁) :: m) top₂ =
      some ([.ifNeGoto v₂ v₁ fail], ((c :: nr), v₁) :: m) := by
  constructor
  · rw [genMatch0.eq_def]; simp [hc, hm]
  · rw [genMatch0.eq_def]; simp [hc, List.lookup]

/-- Witness for C3 at the concrete rule `(Add x x)`: first occurrence of
`x` at `v.Args[0]` binds, second at `v.Args[1]` emits the identity
guard. -/
theorem c3_witness :
    genMatch0 5 "x".data "v.Args[0]".data "F".data [] true =
      some ([.assign "x".data "v.Args[0]".data],
            [("x".data, "v.Args[0]".data)]) ∧
    genMatch0 5 "x".data "v.Args[1]".data "F".data
        [("x".data, "v.Args[0]".data)] false =
      some ([.ifNeGoto "v.Args[1]".data "v.Args[0]".data "F".data],
            [("x".data, "v.Args[0]".data)]) :=
  c3_repeated_variable_binds_then_checks 5 5 "v.Args[0]".data "v.Args[1]".data
    "F".data [] true false 'x' [] (by decide) (by decide)

/-- C1 counterexample: compiling the match pattern `(Add x <x>)` — the
name `x` first in ordinary-variable position, then in type-constraint
position — emits for the type-constraint occurrence an equality check
(`if v.Type != v.Args[0] goto ...`) against the ordinary variable's
binding, not a fresh type-variable binding: the two positions share one
namespace (the single map `m`), refuting the claimed independence. -/
theorem c1_counterexample :
    genMatch 100 "(Add x <x>)".data "F".data =
      some ([Stmt.assign "x".data (childRef "v".data 0),
             Stmt.ifTypeNeGoto "v".data (childRef "v".data 0) "F".data],
            [("x".data, childRef "v".data 0)]) ∧
    Stmt.assignType "x".data "v".data ∉
      [Stmt.assign "x".data (childRef "v".data 0),
       Stmt.ifTypeNeGoto "v".data (childRef "v".data 0) "F".data] := by
  constructor
  · decide
  · decide

/-- C1 amended: ordinary variables, type-constraint variables and
aux-constraint variables are bound in one shared namespace (the single
map `m`).  First conjunct: after a name is bound in ordinary-variable
position, textually identical later occurrences in type-constraint and in
aux-constraint position compile to equality checks against the ordinary
binding instead of fresh bindings.  Second and third conjuncts: after a
name is bound in type-constraint (resp. aux-constraint) position, a later
ordinary-variable occurrence compiles to an equality check against that
binding instead of a fresh binding. -/
theorem c1_shared_namespace (f : Nat) (v fail : Str) (m : Env) (argnum : Nat)
    (c : Char) (nr : Str)
    (hc1 : c ≠ '(') (hc2 : c ≠ '<') (hc3 : c ≠ '[') (hc4 : c ≠ '\x7b')
    (hm : m.lookup (c :: nr) = none) :
    genMatchArgs (f + 3)
        [(c :: nr), '<' :: ((c :: nr) ++ ['>']), '[' :: ((c :: nr) ++ [']'])]
        v fail m argnum =
      some ([Stmt.assign (c :: nr) (childRef v argnum),
             Stmt.ifTypeNeGoto v (childRef v argnum) fail,
             Stmt.ifAuxNeGoto v (childRef v argnum) fail],
            ((c :: nr), childRef v argnum) :: m) ∧
    genMatchArgs (f + 3) ['<' :: ((c :: nr) ++ ['>']), (c :: nr)] v fail m argnum =
      some ([Stmt.assignType (c :: nr) v,
             Stmt.ifNeGoto (childRef v argnum) (v ++ ".Type".data) fail],
            ((c :: nr), v ++ ".Type".data) :: m) ∧
    genMatchArgs (f + 3) ['[' :: ((c :: nr) ++ [']']), (c :: nr)] v fail m argnum =
      some ([Stmt.assignAux (c :: nr) v,
             Stmt.ifNeGoto (childRef v argnum) (v ++ ".Aux".data) fail],
            ((c :: nr), v ++ ".Aux".data) :: m) := by
  refine ⟨?_, ?_, ?_⟩
  · have h0 : genMatch0 (f + 2) (c :: nr) (childRef v argnum) fail m false =
        some ([.assign (c :: nr) (childRef v argnum)],
              ((c :: nr), childRef v argnum) :: m) := by
      rw [genMatch0.eq_def]; simp [hc1, hm]
    rw [genMatchArgs.eq_def]
    simp only [hc2, hc3, hc4, if_false, h0]
    rw [genMatchArgs.eq_def]
    simp only [dropLast_cons_concat, List.drop_succ_cons, List.drop_zero,
      List.dropLast_concat, List.lookup, hc4]
    rw [genMatchArgs.eq_def]
    simp [hc2, hc3, hc4, dropLast_cons_concat, List.lookup, genMatchArgs]
  · rw [genMatchArgs.eq_def]
    simp only [dropLast_cons_concat, List.drop_succ_cons, List.drop_zero,
      List.dropLast_concat, List.lookup, hc4, hm]
    rw [genMatchArgs.eq_def]
    have h0 : genMatch0 (f + 1) (c :: nr) (childRef v argnum) fail
        (((c :: nr), v ++ ".Type".data) :: m) false =
        some ([.ifNeGoto (childRef v argnum) (v ++ ".Type".data) fail],
              ((c :: nr), v ++ ".Type".data) :: m) := by
      rw [genMatch0.eq_def]; simp [hc1, List.lookup]
    simp [hc2, hc3, hc4, h0, genMatchArgs]
  · rw [genMatchArgs.eq_def]
    simp only [dropLast_cons_concat, List.drop_succ_cons, List.drop_zero,
      List.dropLast_concat, List.lookup, hc4, hm]
    rw [genMatchArgs.eq_def]
    have h0 : genMatch0 (f + 1) (c :: nr) (childRef v argnum) fail
        (((c :: nr), v ++ ".Aux".data) :: m) false =
        some ([.ifNeGoto (childRef v argnum) (v ++ ".Aux".data) fail],
              ((c :: nr), v ++ ".Aux".data) :: m) := by
      rw [genMatch0.eq_def]; simp [hc1, List.lookup]
    simp [hc2, hc3, hc4, h0, genMatchArgs]

/-- Witness for C1's amended claim at the name `x`: ordinary binding then
type- and aux-constraint checks, type binding then ordinary check, aux
binding then ordinary check. -/
theorem c1_witness :
    (genMatchArgs 3 ["x".data, "<x>".data, "[x]".data] "v".data "F".data [] 0 =
      some ([Stmt.assign "x".data (childRef "v".data 0),
             Stmt.ifTypeNeGoto "v".data (childRef "v".data 0) "F".data,
             Stmt.ifAuxNeGoto "v".data (childRef "v".data 0) "F".data],
            [("x".data, childRef "v".data 0)])) ∧
    (genMatchArgs 3 ["<x>".data, "x".data] "v".data "F".data [] 0 =
      some ([Stmt.assignType "x".data "v".data,
             Stmt.ifNeGoto (childRef "v".data 0) ("v".data ++ ".Type".data) "F".data],
            [("x".data, "v".data ++ ".Type".data)])) ∧
    (genMatchArgs 3 ["[x]".data, "x".data] "v".data "F".data [] 0 =
      some ([Stmt.assignAux "x".data "v".data,
             Stmt.ifNeGoto (childRef "v".data 0) ("v".data ++ ".Aux".data) "F".data],
            [("x".data, "v".data ++ ".Aux".data)])) :=
  c1_shared_namespace 0 "v".data "F".data [] 0 'x' []
    (by decide) (by decide) (by decide) (by decide) (by decide)

/-- C2 (the bounds-check claim, shown violated by the code): compiling the
match pattern `(Add x y z)` — three positional child slots — emits exactly
three unguarded bindings of `v.Args[0]`, `v.Args[1]`, `v.Args[2]`.  No
emitted statement compares any index against the matched Term's arity:
the generated matcher indexes out of range instead of falling through when
the Term has fewer children. -/
theorem c2_no_bounds_check :
    genMatch 100 "(Add x y z)".data "F".data =
      some ([Stmt.assign "x".data (childRef "v".data 0),
             Stmt.assign "y".data (childRef "v".data 1),
             Stmt.assign "z".data (childRef "v".data 2)],
            [("z".data, childRef "v".data 2),
             ("y".data, childRef "v".data 1),
             ("x".data, childRef "v".data 0)]) := by decide

/-- C10: one step of the match-side argument loop, for each of the six
argument forms.  A type constraint (`<var>` or `<{code}>`) and an aux
constraint (`[var]` or `[{code}]`) emit a check or binding on the current
node's own `.Type` / `.Aux` field and pass `argnum` on unchanged; a
literal pin (`{code}`) emits a check on child slot `argnum` and advances
it by one; an ordinary variable or sub-pattern is compiled against
`v.Args[argnum]` and advances it by one. -/
theorem c10_positional_index (f : Nat) (v fail : Str) (m : Env) (argnum : Nat)
    (rest : List Str) (tc nc : Char) (tr nr u code : Str)
    (htc : tc ≠ '\x7b')
    (hnc1 : nc ≠ '<') (hnc2 : nc ≠ '[') (hnc3 : nc ≠ '\x7b') :
    (genMatchArgs (f + 1) (('<' :: ((tc :: tr) ++ ['>'])) :: rest) v fail m argnum =
       (match m.lookup (tc :: tr) with
        | some u' =>
          (genMatchArgs f rest v fail m argnum).map
            (fun r => (Stmt.ifTypeNeGoto v u' fail :: r.1, r.2))
        | none =>
          (genMatchArgs f rest v fail (((tc :: tr), v ++ ".Type".data) :: m) argnum).map
            (fun r => (Stmt.assignType (tc :: tr) v :: r.1, r.2)))) ∧
    (genMatchArgs (f + 1) (('<' :: (('\x7b' :: (u ++ ['\x7d'])) ++ ['>'])) :: rest) v fail m argnum =
       (genMatchArgs f rest v fail m argnum).map
         (fun r => (Stmt.ifTypeNeGoto v u fail :: r.1, r.2))) ∧
    (genMatchArgs (f + 1) (('[' :: ((tc :: tr) ++ [']'])) :: rest) v fail m argnum =
       (match m.lookup (tc :: tr) with
        | some y =>
          (genMatchArgs f rest v fail m argnum).map
            (fun r => (Stmt.ifAuxNeGoto v y fail :: r.1, r.2))
        | none =>
          (genMatchArgs f rest v fail (((tc :: tr), v ++ ".Aux".data) :: m) argnum).map
            (fun r => (Stmt.assignAux (tc :: tr) v :: r.1, r.2)))) ∧
    (genMatchArgs (f + 1) (('[' :: (('\x7b' :: (u ++ ['\x7d'])) ++ [']'])) :: rest) v fail m argnum =
       (genMatchArgs f rest v fail m argnum).map
         (fun r => (Stmt.ifAuxNeGoto v u fail :: r.1, r.2))) ∧
    (genMatchArgs (f + 1) (('\x7b' :: (code ++ ['\x7d'])) :: rest) v fail m argnum =
       (genMatchArgs f rest v fail m (argnum + 1)).map
         (fun r => (Stmt.ifArgNeGoto v argnum code fail :: r.1, r.2))) ∧
    (genMatchArgs (f + 1) ((nc :: nr) :: rest) v fail m argnum =
       match genMatch0 f (nc :: nr) (childRef v argnum) fail m false with
       | none => none
       | some (st1, m1) =>
         (genMatchArgs f rest v fail m1 (argnum + 1)).map (fun r => (st1 ++ r.1, r.2))) := by
  refine ⟨?_, ?_, ?_, ?_, ?_, ?_⟩
  · rw [genMatchArgs.eq_def]
    simp [dropLast_cons_concat, htc]
  · rw [genMatchArgs.eq_def]
    simp [dropLast_cons_concat_two, List.dropLast_concat]
    rw [if_neg (by omega), if_neg (by omega)]
  · rw [genMatchArgs.eq_def]
    simp [dropLast_cons_concat, htc]
  · rw [genMatchArgs.eq_def]
    simp [dropLast_cons_concat_two, List.dropLast_concat]
    rw [if_neg (by omega), if_neg (by omega)]
  · rw [genMatchArgs.eq_def]
    simp [dropLast_cons_concat, List.dropLast_concat]
  · rw [genMatchArgs.eq_def]
    simp [hnc1, hnc2, hnc3]

/-- Witness for C10 at one concrete instance of each argument form. -/
theorem c10_witness :
    (genMatchArgs 4 (('<' :: (('t' :: []) ++ ['>'])) :: []) "v".data "F".data [] 0 =
       (match ([] : Env).lookup ('t' :: []) with
        | some u' =>
          (genMatchArgs 3 [] "v".data "F".data [] 0).map
            (fun r => (Stmt.ifTypeNeGoto "v".data u' "F".data :: r.1, r.2))
        | none =>
          (genMatchArgs 3 [] "v".data "F".data [(('t' :: []), "v".data ++ ".Type".data)] 0).map
            (fun r => (Stmt.assignType ('t' :: []) "v".data :: r.1, r.2)))) ∧
    (genMatchArgs 4 (('<' :: (('\x7b' :: ("U".data ++ ['\x7d'])) ++ ['>'])) :: []) "v".data "F".data [] 0 =
       (genMatchArgs 3 [] "v".data "F".data [] 0).map
         (fun r => (Stmt.ifTypeNeGoto "v".data "U".data "F".data :: r.1, r.2))) ∧
    (genMatchArgs 4 (('[' :: (('t' :: []) ++ [']'])) :: []) "v".data "F".data [] 0 =
       (match ([] : Env).lookup ('t' :: []) with
        | some y =>
          (genMatchArgs 3 [] "v".data "F".data [] 0).map
            (fun r => (Stmt.ifAuxNeGoto "v".data y "F".data :: r.1, r.2))
        | none =>
          (genMatchArgs 3 [] "v".data "F".data [(('t' :: []), "v".data ++ ".Aux".data)] 0).map
            (fun r => (Stmt.assignAux ('t' :: []) "v".data :: r.1, r.2)))) ∧
    (genMatchArgs 4 (('[' :: (('\x7b' :: ("U".data ++ ['\x7d'])) ++ [']'])) :: []) "v".data "F".data [] 0 =
       (genMatchArgs 3 [] "v".data "F".data [] 0).map
         (fun r => (Stmt.ifAuxNeGoto "v".data "U".data "F".data :: r.1, r.2))) ∧
    (genMatchArgs 4 (('\x7b' :: ("C".data ++ ['\x7d'])) :: []) "v".data "F".data [] 0 =
       (genMatchArgs 3 [] "v".data "F".data [] 1).map
         (fun r => (Stmt.ifArgNeGoto "v".data 0 "C".data "F".data :: r.1, r.2))) ∧
    (genMatchArgs 4 (('x' :: []) :: []) "v".data "F".data [] 0 =
       match genMatch0 3 ('x' :: []) (childRef "v".data 0) "F".data [] false with
       | none => none
       | some (st1, m1) =>
         (genMatchArgs 3 [] "v".data "F".data m1 1).map (fun r => (st1 ++ r.1, r.2))) :=
  c10_positional_index 3 "v".data "F".data [] 0 [] 't' 'x' [] [] "U".data "C".data
    (by decide) (by decide) (by decide) (by decide)

/-- `strings.Split` never returns an empty slice. -/
theorem splitArrow_ne_nil (s : Str) : splitArrow s ≠ [] := by
  induction s using splitArrow.induct with
  | case1 => simp [splitArrow]
  | case2 rest ih => simp [splitArrow]
  | case3 c rest hne heq ih => simp [splitArrow, heq]
  | case4 c rest hne h t heq ih => simp [splitArrow, heq]

/-- `countArrow` ignores a head character that does not begin an arrow. -/
theorem countArrow_cons (c : Char) (rest : Str)
    (hne : ∀ r : Str, c = '-' → rest = '>' :: r → False) :
    countArrow (c :: rest) = countArrow rest := by
  rw [countArrow.eq_def]
  split
  · simp_all
  · rename_i r heqx
    injection heqx with h1 h2
    exact (hne r h1 h2).elim
  · rename_i c' r hg heqx
    injection heqx with h1 h2
    rw [h2]

/-- The number of segments `strings.Split(s, "->")` yields is one more
than the number of arrow occurrences. -/
theorem splitArrow_length (s : Str) : (splitArrow s).length = countArrow s + 1 := by
  induction s using splitArrow.induct with
  | case1 => simp [splitArrow, countArrow]
  | case2 rest ih => simp [splitArrow, countArrow, ih]
  | case3 c rest hne heq ih => exact absurd heq (splitArrow_ne_nil rest)
  | case4 c rest hne h t heq ih =>
    rw [countArrow_cons c rest hne, ← ih, splitArrow.eq_def]
    split
    · rename_i heqx
      exact absurd heqx (by simp)
    · rename_i r heqx
      injection heqx with h1 h2
      exact (hne r h1 h2).elim
    · rename_i c' h' hg heqx
      injection heqx with h1 h2
      rw [← h2, heq]
      simp

/-- C7: splitting one raw rule line at the arrow separator fails (the
fatal `no arrow in rule` abort) exactly when the arrow is absent or occurs
more than once — that is, when `strings.Split` does not yield exactly two
segments; with exactly one arrow the rule is decomposed and compilation
proceeds (`splitRule` returns the match/condition/result segments). -/
theorem c7_malformed_rule_iff (rule : Str) :
    splitRule rule = none ↔ countArrow rule ≠ 1 := by
  have hlen := splitArrow_length rule
  rcases h : splitArrow rule with _ | ⟨l, _ | ⟨r, _ | ⟨x, xs⟩⟩⟩ <;>
    rw [h] at hlen <;> simp at hlen <;> simp [splitRule, h]
  · omega
  · cases hamp : splitAmp (trimSet " \t".data l) <;> simp [hamp] <;> omega
  · omega


/-- `depthSum` distributes over append. -/
theorem depthSum_append (a b : Str) : depthSum (a ++ b) = depthSum a + depthSum b := by
  simp [depthSum]

/-- `depthSum` of a cons. -/
theorem depthSum_cons (c : Char) (s : Str) : depthSum (c :: s) = delta c + depthSum s := by
  simp [depthSum]

/-- A completed scan (no cut found) ends with the depth counter holding
the whole string's depth sum. -/
theorem scan_inr (s : Str) : ∀ d ns d' ns', scan s d ns = .inr (d', ns') →
    d' = d + depthSum s := by
  induction s with
  | nil =>
    intro d ns d' ns' h
    simp [scan] at h
    simp [depthSum, h.1]
  | cons c rest ih =>
    intro d ns d' ns' h
    rw [scan.eq_def] at h
    cases ho : isOpenDelim c with
    | true =>
      simp only [ho, if_true] at h
      cases hscan : scan rest (d + 1) ns with
      | inl p => rw [hscan] at h; cases h
      | inr r =>
        rw [hscan] at h
        injection h with h2
        rw [h2] at hscan
        have hh := ih (d + 1) ns d' ns' hscan
        simp only [depthSum_cons, delta, ho, if_true]
        omega
    | false =>
      cases hc : isCloseDelim c with
      | true =>
        simp only [ho, hc, if_true, if_false, Bool.false_eq_true] at h
        cases hscan : scan rest (d - 1) ns with
        | inl p => rw [hscan] at h; cases h
        | inr r =>
          rw [hscan] at h
          injection h with h2
          rw [h2] at hscan
          have hh := ih (d - 1) ns d' ns' hscan
          simp only [depthSum_cons, delta, ho, hc, if_true, if_false, Bool.false_eq_true]
          omega
      | false =>
        cases hw : isWS c with
        | true =>
          simp only [ho, hc, hw, if_true, if_false, Bool.false_eq_true] at h
          by_cases hcut : (d = 0 && ns) = true
          · rw [if_pos hcut] at h; cases h
          · rw [if_neg hcut] at h
            cases hscan : scan rest d ns with
            | inl p => rw [hscan] at h; cases h
            | inr r =>
              rw [hscan] at h
              injection h with h2
              rw [h2] at hscan
              have hh := ih d ns d' ns' hscan
              simp only [depthSum_cons, delta, ho, hc, if_false, Bool.false_eq_true]
              omega
        | false =>
          simp only [ho, hc, hw, if_true, if_false, Bool.false_eq_true] at h
          cases hscan : scan rest d true with
          | inl p => rw [hscan] at h; cases h
          | inr r =>
            rw [hscan] at h
            injection h with h2
            rw [h2] at hscan
            have hh := ih d true d' ns' hscan
            simp only [depthSum_cons, delta, ho, hc, if_false, Bool.false_eq_true]
            omega



/-- A cut splits the string at a depth-zero whitespace character: the
prefix's depth sum cancels the entry depth, and the remainder is no longer
than the input — strictly shorter when the scan starts with `nonsp`
unset. -/
theorem scan_inl (s : Str) : ∀ d ns pre post, scan s d ns = .inl (pre, post) →
    pre ++ post = s ∧ d + depthSum pre = 0 ∧ post.length ≤ s.length ∧
      (ns = false → post.length < s.length) := by
  induction s with
  | nil => intro d ns pre post h; simp [scan] at h
  | cons c rest ih =>
    intro d ns pre post h
    rw [scan.eq_def] at h
    cases ho : isOpenDelim c with
    | true =>
      simp only [ho, if_true] at h
      cases hscan : scan rest (d + 1) ns with
      | inr r => rw [hscan] at h; cases h
      | inl p =>
        obtain ⟨pre2, post2⟩ := p
        rw [hscan] at h
        injection h with h2
        injection h2 with h3 h4
        obtain ⟨q1, q2, q3, q4⟩ := ih (d + 1) ns pre2 post2 hscan
        refine ⟨?_, ?_, ?_, ?_⟩
        · rw [← h3, ← h4]; simp [q1]
        · rw [← h3, depthSum_cons]
          simp only [delta, ho, if_true]
          omega
        · rw [← h4]; simp; omega
        · intro _; rw [← h4]; simp; omega
    | false =>
      cases hc : isCloseDelim c with
      | true =>
        simp only [ho, hc, if_true, if_false, Bool.false_eq_true] at h
        cases hscan : scan rest (d - 1) ns with
        | inr r => rw [hscan] at h; cases h
        | inl p =>
          obtain ⟨pre2, post2⟩ := p
          rw [hscan] at h
          injection h with h2
          injection h2 with h3 h4
          obtain ⟨q1, q2, q3, q4⟩ := ih (d - 1) ns pre2 post2 hscan
          refine ⟨?_, ?_, ?_, ?_⟩
          · rw [← h3, ← h4]; simp [q1]
          · rw [← h3, depthSum_cons]
            simp only [delta, ho, hc, if_true, if_false, Bool.false_eq_true]
            omega
          · rw [← h4]; simp; omega
          · intro _; rw [← h4]; simp; omega
      | false =>
        cases hw : isWS c with
        | true =>
          simp only [ho, hc, hw, if_true, if_false, Bool.false_eq_true] at h
          by_cases hcut : (decide (d = 0) && ns) = true
          · rw [if_pos hcut] at h
            simp only [Bool.and_eq_true, decide_eq_true_eq] at hcut
            injection h with h2
            injection h2 with h3 h4
            refine ⟨?_, ?_, ?_, ?_⟩
            · rw [← h3, ← h4]; simp
            · rw [← h3]; simp [depthSum, hcut.1]
            · rw [← h4]
            · intro hns; rw [hns] at hcut; exact absurd hcut.2 (by simp)
          · rw [if_neg hcut] at h
            cases hscan : scan rest d ns with
            | inr r => rw [hscan] at h; cases h
            | inl p =>
              obtain ⟨pre2, post2⟩ := p
              rw [hscan] at h
              injection h with h2
              injection h2 with h3 h4
              obtain ⟨q1, q2, q3, q4⟩ := ih d ns pre2 post2 hscan
              refine ⟨?_, ?_, ?_, ?_⟩
              · rw [← h3, ← h4]; simp [q1]
              · rw [← h3, depthSum_cons]
                simp only [delta, ho, hc, if_false, Bool.false_eq_true]
                omega
              · rw [← h4]; simp; omega
              · intro _; rw [← h4]; simp; omega
        | false =>
          simp only [ho, hc, hw, if_true, if_false, Bool.false_eq_true] at h
          cases hscan : scan rest d true with
          | inr r => rw [hscan] at h; cases h
          | inl p =>
            obtain ⟨pre2, post2⟩ := p
            rw [hscan] at h
            injection h with h2
            injection h2 with h3 h4
            obtain ⟨q1, q2, q3, q4⟩ := ih d true pre2 post2 hscan
            refine ⟨?_, ?_, ?_, ?_⟩
            · rw [← h3, ← h4]; simp [q1]
            · rw [← h3, depthSum_cons]
              simp only [delta, ho, hc, if_false, Bool.false_eq_true]
              omega
            · rw [← h4]; simp; omega
            · intro _; rw [← h4]; simp; omega


/-- With enough fuel, the outer loop fails exactly on inputs whose total
depth sum is nonzero. -/
theorem splitGo_none_iff : ∀ (f : Nat) (s : Str), s.length < f →
    (splitGo f s = none ↔ depthSum s ≠ 0) := by
  intro f
  induction f with
  | zero => intro s h; exact absurd h (by omega)
  | succ f ih =>
    intro s hs
    simp only [splitGo]
    by_cases hnil : s = []
    · simp [hnil, depthSum]
    · rw [if_neg hnil]
      cases hscan : scan s 0 false with
      | inl p =>
        obtain ⟨pre, post⟩ := p
        obtain ⟨happ, hd, hle, hlt⟩ := scan_inl s 0 false pre post hscan
        have hlen : post.length < s.length := hlt rfl
        have hiff := ih post (by omega)
        have hds : depthSum s = depthSum post := by
          rw [← happ, depthSum_append]
          omega
        rw [hds]
        cases hpost : splitGo f post with
        | none => simp [hpost] at hiff ⊢; omega
        | some l => simp [hpost] at hiff ⊢; omega
      | inr r =>
        obtain ⟨d, nonsp⟩ := r
        have hd := scan_inr s 0 false d nonsp hscan
        dsimp only
        by_cases hz : d = 0
        · rw [if_neg (by simp [hz])]
          have : depthSum s = 0 := by omega
          cases nonsp <;> simp [this]
        · rw [if_pos (by simp [hz])]
          simp only [true_iff]
          omega

/-- C8: the bracket-aware tokenizer fails (the `imbalanced expression`
panic) exactly when the shared depth counter — incremented by any of the
four opening delimiters, decremented by any of the four closing ones — is
nonzero at end of input, i.e. when the input's total depth sum is nonzero;
for every input whose counter returns to zero it produces the token list
without error. -/
theorem c8_unbalanced_iff (s : Str) : split s = none ↔ depthSum s ≠ 0 :=
  splitGo_none_iff (s.length + 1) s (Nat.lt_succ_self _)


/-- `digitChar` of a digit decodes back to the digit. -/
theorem digitChar_toNat (k : Nat) (h : k < 10) : (digitChar k).toNat = 48 + k := by
  interval_cases k <;> decide

/-- Folding the decimal decoder over `natCharsAux` recovers the number. -/
theorem natCharsAux_foldl (f : Nat) : ∀ n a, n < f →
    (natCharsAux f n).foldl (fun acc c => 10 * acc + (c.toNat - 48)) a =
      a * 10 ^ (natCharsAux f n).length + n := by
  induction f with
  | zero => intro n a h; exact absurd h (by omega)
  | succ f ih =>
    intro n a h
    by_cases h10 : n < 10
    · simp only [natCharsAux, h10, if_true]
      simp [digitChar_toNat n h10]
      omega
    · simp only [natCharsAux, h10, if_false]
      rw [List.foldl_append]
      have hdiv : n / 10 < f := by omega
      rw [ih (n / 10) a hdiv]
      simp [digitChar_toNat (n % 10) (by omega)]
      rw [pow_succ]
      have hmod : 10 * (n / 10) + n % 10 = n := Nat.div_add_mod n 10
      ring_nf
      omega

/-- The decimal decoder inverts `natChars`. -/
theorem decVal_natChars (n : Nat) : decVal (natChars n) = n := by
  have := natCharsAux_foldl (n + 1) n 0 (Nat.lt_succ_self n)
  simpa [decVal, natChars] using this

/-- `%d` output is injective. -/
theorem natChars_inj (m n : Nat) (h : natChars m = natChars n) : m = n := by
  have hm := decVal_natChars m
  have hn := decVal_natChars n
  rw [h] at hm
  omega

/-- `natChars` is never empty. -/
theorem natChars_ne_nil (n : Nat) : natChars n ≠ [] := by
  unfold natChars natCharsAux
  by_cases h10 : n < 10 <;> simp [h10]

/-- Distinct allocation counters give distinct fresh value names. -/
theorem vname_inj (m n : Nat) (h : vname m = vname n) : m = n := by
  unfold vname at h
  exact natChars_inj m n (by injection h)

/-- A fresh value name `v%d` is never the matched value's name `v`. -/
theorem vname_ne_v (n : Nat) : vname n ≠ "v".data := by
  unfold vname
  intro h
  have : natChars n = [] := by
    have : "v".data = ['v'] := by decide
    rw [this] at h
    injection h
  exact natChars_ne_nil n this


/-- Allocation-counter and type-statement bookkeeping of the result
compiler, proved for `genResult0` (non-top calls) and `genResultArgs`
simultaneously by induction on the fuel: the counter never decreases;
every emitted `SetType()` call and every emitted `.Type =` assignment of a
nested (non-top) compilation targets a fresh name `v%k` with `k` in the
interval of counters consumed; the final `needsType` flag is the incoming
one conjoined with "no argument is a type constraint"; and when a type
constraint is present, a `.Type =` assignment on the current node is
emitted. -/
theorem genResultRefs : ∀ f : Nat,
    (∀ res alloc st al x, genResult0 f res alloc false = some (st, al, x) →
       alloc ≤ al ∧
       (∀ r, Stmt.setTypeCall r ∈ st → ∃ k, alloc ≤ k ∧ k < al ∧ r = vname k) ∧
       (∀ r t, Stmt.setTypeField r t ∈ st → ∃ k, alloc ≤ k ∧ k < al ∧ r = vname k)) ∧
    (∀ args v alloc nt st al nt', genResultArgs f args v alloc nt = some (st, al, nt') →
       alloc ≤ al ∧ nt' = (nt && args.all noTypeHead) ∧
       (∀ r, Stmt.setTypeCall r ∈ st → ∃ k, alloc ≤ k ∧ k < al ∧ r = vname k) ∧
       (∀ r t, Stmt.setTypeField r t ∈ st →
          r = v ∨ ∃ k, alloc ≤ k ∧ k < al ∧ r = vname k) ∧
       (args.all noTypeHead = true → ∀ r t, Stmt.setTypeField r t ∈ st →
          ∃ k, alloc ≤ k ∧ k < al ∧ r = vname k) ∧
       (args.all noTypeHead = false → ∃ t, Stmt.setTypeField v t ∈ st)) := by
  intro f
  induction f with
  | zero =>
    constructor
    · intro res alloc st al x h
      rw [genResult0.eq_def] at h
      rcases res with _ | ⟨c, rr⟩
      · cases h
      · by_cases hc : c = '('
        · simp only [hc, if_true] at h
          cases h
        · simp only [hc, if_false] at h
          injection h with h2
          injection h2 with hst h3
          injection h3 with hal hx
          subst hst; subst hal
          refine ⟨le_refl _, ?_, ?_⟩
          · intro r hr
            exact absurd hr (List.not_mem_nil _)
          · intro r t hr
            exact absurd hr (List.not_mem_nil _)
    · intro args v alloc nt st al nt' h
      rcases args with _ | ⟨a, rest⟩
      · rw [genResultArgs.eq_def] at h
        injection h with h2
        injection h2 with hst h3
        injection h3 with hal hnt
        subst hst; subst hal; subst hnt
        refine ⟨le_refl _, by simp, ?_, ?_, ?_, by simp⟩
        · intro r hr
          exact absurd hr (List.not_mem_nil _)
        · intro r t hr
          exact absurd hr (List.not_mem_nil _)
        · intro _ r t hr
          exact absurd hr (List.not_mem_nil _)
      · rw [genResultArgs.eq_def] at h
        cases h
  | succ f ih =>
    obtain ⟨ihR, ihA⟩ := ih
    have hR : ∀ res alloc st al x, genResult0 (f + 1) res alloc false = some (st, al, x) →
        alloc ≤ al ∧
        (∀ r, Stmt.setTypeCall r ∈ st → ∃ k, alloc ≤ k ∧ k < al ∧ r = vname k) ∧
        (∀ r t, Stmt.setTypeField r t ∈ st → ∃ k, alloc ≤ k ∧ k < al ∧ r = vname k) := by
      intro res alloc st al x h
      rw [genResult0.eq_def] at h
      rcases res with _ | ⟨c, rr⟩
      · cases h
      · by_cases hc : c = '('
        · simp only [hc, if_true] at h
          by_cases hlen : (('(' : Char) :: rr).length < 2
          · rw [if_pos hlen] at h; cases h
          · rw [if_neg hlen] at h
            rcases hsp : split ((('(' : Char) :: rr).drop 1).dropLast with _ | ⟨_ | ⟨s0, args⟩⟩
            · rw [hsp] at h; cases h
            · rw [hsp] at h; cases h
            · rw [hsp] at h
              simp only [Bool.false_eq_true, if_false] at h
              rcases hA : genResultArgs f args (vname alloc) (alloc + 1) true with _ | ⟨st2, al2, nt2⟩
              · rw [hA] at h; cases h
              · rw [hA] at h
                injection h with h2
                injection h2 with hst h3
                injection h3 with hal hx
                subst hst; subst hal
                obtain ⟨a1, a2, a3, a4, a5, a6⟩ := ihA args (vname alloc) (alloc + 1) true st2 al2 nt2 hA
                refine ⟨by omega, ?_, ?_⟩
                · intro r hr
                  simp only [List.mem_cons, List.mem_append] at hr
                  rcases hr with (h' | h') | h'
                  · cases h'
                  · obtain ⟨k, hk1, hk2, hk3⟩ := a3 r h'
                    exact ⟨k, by omega, by omega, hk3⟩
                  · by_cases hnt2 : nt2 = true
                    · rw [if_pos hnt2, List.mem_singleton] at h'
                      injection h' with e
                      exact ⟨alloc, le_refl _, by omega, e⟩
                    · rw [if_neg hnt2] at h'
                      exact absurd h' (List.not_mem_nil _)
                · intro r t hr
                  simp only [List.mem_cons, List.mem_append] at hr
                  rcases hr with (h' | h') | h'
                  · cases h'
                  · rcases a4 r t h' with h'' | ⟨k, hk1, hk2, hk3⟩
                    · exact ⟨alloc, le_refl _, by omega, h''⟩
                    · exact ⟨k, by omega, by omega, hk3⟩
                  · by_cases hnt2 : nt2 = true
                    · rw [if_pos hnt2, List.mem_singleton] at h'
                      cases h'
                    · rw [if_neg hnt2] at h'
                      exact absurd h' (List.not_mem_nil _)
        · simp only [hc, if_false] at h
          injection h with h2
          injection h2 with hst h3
          injection h3 with hal hx
          subst hst; subst hal
          refine ⟨le_refl _, ?_, ?_⟩
          · intro r hr
            exact absurd hr (List.not_mem_nil _)
          · intro r t hr
            exact absurd hr (List.not_mem_nil _)
    refine ⟨hR, ?_⟩
    intro args v alloc nt st al nt' h
    rcases args with _ | ⟨a, rest⟩
    · rw [genResultArgs.eq_def] at h
      injection h with h2
      injection h2 with hst h3
      injection h3 with hal hnt
      subst hst; subst hal; subst hnt
      refine ⟨le_refl _, by simp, ?_, ?_, ?_, by simp⟩
      · intro r hr
        exact absurd hr (List.not_mem_nil _)
      · intro r t hr
        exact absurd hr (List.not_mem_nil _)
      · intro _ r t hr
        exact absurd hr (List.not_mem_nil _)
    · rw [genResultArgs.eq_def] at h
      rcases a with _ | ⟨c, arest⟩
      · cases h
      · dsimp only at h
        by_cases hlt : c = '<'
        · subst hlt
          rw [if_pos rfl] at h
          by_cases hlen : (('<' : Char) :: arest).length < 2
          · rw [if_pos hlen] at h; cases h
          · rw [if_neg hlen] at h
            rcases ht0 : ((('<' : Char) :: arest).drop 1).dropLast with _ | ⟨tc, ts⟩
            · rw [ht0] at h; cases h
            · rw [ht0] at h
              dsimp only at h
              have hna : noTypeHead (('<' : Char) :: arest) = false := by
                simp [noTypeHead]
              by_cases htc : tc = '\x7b'
              · subst htc
                rw [if_pos rfl] at h
                by_cases hlen2 : (('\x7b' : Char) :: ts).length < 2
                · rw [if_pos hlen2] at h; cases h
                · rw [if_neg hlen2] at h
                  rcases hrec : genResultArgs f rest v alloc false with _ | ⟨st2, al2, nt2⟩
                  · rw [hrec] at h; cases h
                  · rw [hrec] at h
                    simp only [Option.map_some'] at h
                    injection h with h2
                    injection h2 with hst h3
                    injection h3 with hal hnt
                    subst hst; subst hal; subst hnt
                    obtain ⟨a1, a2, a3, a4, a5, a6⟩ := ihA rest v alloc false st2 al2 nt2 hrec
                    refine ⟨a1, by simp [hna, a2], ?_, ?_, ?_, ?_⟩
                    · intro r hr
                      simp only [List.mem_cons] at hr
                      rcases hr with h' | h'
                      · cases h'
                      · exact a3 r h'
                    · intro r t hr
                      simp only [List.mem_cons] at hr
                      rcases hr with h' | h'
                      · injection h' with e1 e2
                        exact Or.inl e1
                      · exact a4 r t h'
                    · intro hall
                      rw [List.all_cons, hna] at hall
                      simp at hall
                    · intro _
                      exact ⟨((('\x7b' : Char) :: ts).drop 1).dropLast, by simp⟩
              · rw [if_neg htc] at h
                rcases hrec : genResultArgs f rest v alloc false with _ | ⟨st2, al2, nt2⟩
                · rw [hrec] at h; cases h
                · rw [hrec] at h
                  simp only [Option.map_some'] at h
                  injection h with h2
                  injection h2 with hst h3
                  injection h3 with hal hnt
                  subst hst; subst hal; subst hnt
                  obtain ⟨a1, a2, a3, a4, a5, a6⟩ := ihA rest v alloc false st2 al2 nt2 hrec
                  refine ⟨a1, by simp [hna, a2], ?_, ?_, ?_, ?_⟩
                  · intro r hr
                    simp only [List.mem_cons] at hr
                    rcases hr with h' | h'
                    · cases h'
                    · exact a3 r h'
                  · intro r t hr
                    simp only [List.mem_cons] at hr
                    rcases hr with h' | h'
                    · injection h' with e1 e2
                      exact Or.inl e1
                    · exact a4 r t h'
                  · intro hall
                    rw [List.all_cons, hna] at hall
                    simp at hall
                  · intro _
                    exact ⟨tc :: ts, by simp⟩
        · by_cases hbr : c = '['
          · subst hbr
            rw [if_neg hlt, if_pos rfl] at h
            by_cases hlen : (('[' : Char) :: arest).length < 2
            · rw [if_pos hlen] at h; cases h
            · rw [if_neg hlen] at h
              rcases ht0 : ((('[' : Char) :: arest).drop 1).dropLast with _ | ⟨xc, xs⟩
              · rw [ht0] at h; cases h
              · rw [ht0] at h
                dsimp only at h
                have hna : noTypeHead (('[' : Char) :: arest) = true := by
                  simp [noTypeHead]
                by_cases hxc : xc = '\x7b'
                · subst hxc
                  rw [if_pos rfl] at h
                  by_cases hlen2 : (('\x7b' : Char) :: xs).length < 2
                  · rw [if_pos hlen2] at h; cases h
                  · rw [if_neg hlen2] at h
                    rcases hrec : genResultArgs f rest v alloc nt with _ | ⟨st2, al2, nt2⟩
                    · rw [hrec] at h; cases h
                    · rw [hrec] at h
                      simp only [Option.map_some'] at h
                      injection h with h2
                      injection h2 with hst h3
                      injection h3 with hal hnt
                      subst hst; subst hal; subst hnt
                      obtain ⟨a1, a2, a3, a4, a5, a6⟩ := ihA rest v alloc nt st2 al2 nt2 hrec
                      refine ⟨a1, by simp [hna, a2], ?_, ?_, ?_, ?_⟩
                      · intro r hr
                        simp only [List.mem_cons] at hr
                        rcases hr with h' | h'
                        · cases h'
                        · exact a3 r h'
                      · intro r t hr
                        simp only [List.mem_cons] at hr
                        rcases hr with h' | h'
                        · cases h'
                        · exact a4 r t h'
                      · intro hall
                        rw [List.all_cons, hna, Bool.true_and] at hall
                        intro r t hr
                        simp only [List.mem_cons] at hr
                        rcases hr with h' | h'
                        · cases h'
                        · exact a5 hall r t h'
                      · intro hall
                        rw [List.all_cons, hna, Bool.true_and] at hall
                        obtain ⟨t, htmem⟩ := a6 hall
                        exact ⟨t, by simp [htmem]⟩
                · rw [if_neg hxc] at h
                  rcases hrec : genResultArgs f rest v alloc nt with _ | ⟨st2, al2, nt2⟩
                  · rw [hrec] at h; cases h
                  · rw [hrec] at h
                    simp only [Option.map_some'] at h
                    injection h with h2
                    injection h2 with hst h3
                    injection h3 with hal hnt
                    subst hst; subst hal; subst hnt
                    obtain ⟨a1, a2, a3, a4, a5, a6⟩ := ihA rest v alloc nt st2 al2 nt2 hrec
                    refine ⟨a1, by simp [hna, a2], ?_, ?_, ?_, ?_⟩
                    · intro r hr
                      simp only [List.mem_cons] at hr
                      rcases hr with h' | h'
                      · cases h'
                      · exact a3 r h'
                    · intro r t hr
                      simp only [List.mem_cons] at hr
                      rcases hr with h' | h'
                      · cases h'
                      · exact a4 r t h'
                    · intro hall
                      rw [List.all_cons, hna, Bool.true_and] at hall
                      intro r t hr
                      simp only [List.mem_cons] at hr
                      rcases hr with h' | h'
                      · cases h'
                      · exact a5 hall r t h'
                    · intro hall
                      rw [List.all_cons, hna, Bool.true_and] at hall
                      obtain ⟨t, htmem⟩ := a6 hall
                      exact ⟨t, by simp [htmem]⟩
          · by_cases hcu : c = '\x7b'
            · subst hcu
              rw [if_neg hlt, if_neg hbr, if_pos rfl] at h
              by_cases hlen : (('\x7b' : Char) :: arest).length < 2
              · rw [if_pos hlen] at h; cases h
              · rw [if_neg hlen] at h
                have hna : noTypeHead (('\x7b' : Char) :: arest) = true := by
                  simp [noTypeHead]
                rcases hrec : genResultArgs f rest v alloc nt with _ | ⟨st2, al2, nt2⟩
                · rw [hrec] at h; cases h
                · rw [hrec] at h
                  simp only [Option.map_some'] at h
                  injection h with h2
                  injection h2 with hst h3
                  injection h3 with hal hnt
                  subst hst; subst hal; subst hnt
                  obtain ⟨a1, a2, a3, a4, a5, a6⟩ := ihA rest v alloc nt st2 al2 nt2 hrec
                  refine ⟨a1, by simp [hna, a2], ?_, ?_, ?_, ?_⟩
                  · intro r hr
                    simp only [List.mem_cons] at hr
                    rcases hr with h' | h'
                    · cases h'
                    · exact a3 r h'
                  · intro r t hr
                    simp only [List.mem_cons] at hr
                    rcases hr with h' | h'
                    · cases h'
                    · exact a4 r t h'
                  · intro hall
                    rw [List.all_cons, hna, Bool.true_and] at hall
                    intro r t hr
                    simp only [List.mem_cons] at hr
                    rcases hr with h' | h'
                    · cases h'
                    · exact a5 hall r t h'
                  · intro hall
                    rw [List.all_cons, hna, Bool.true_and] at hall
                    obtain ⟨t, htmem⟩ := a6 hall
                    exact ⟨t, by simp [htmem]⟩
            · rw [if_neg hlt, if_neg hbr, if_neg hcu] at h
              have hna : noTypeHead (c :: arest) = true := by
                simp [noTypeHead, hlt]
              rcases hrec0 : genResult0 f (c :: arest) alloc false with _ | ⟨st1, alloc1, x⟩
              · rw [hrec0] at h; cases h
              · rw [hrec0] at h
                dsimp only at h
                rcases hrec : genResultArgs f rest v alloc1 nt with _ | ⟨st2, al2, nt2⟩
                · rw [hrec] at h; cases h
                · rw [hrec] at h
                  simp only [Option.map_some'] at h
                  injection h with h2
                  injection h2 with hst h3
                  injection h3 with hal hnt
                  subst hst; subst hal; subst hnt
                  obtain ⟨r1, r2, r3⟩ := ihR (c :: arest) alloc st1 alloc1 x hrec0
                  obtain ⟨a1, a2, a3, a4, a5, a6⟩ := ihA rest v alloc1 nt st2 al2 nt2 hrec
                  refine ⟨by omega, by simp [hna, a2], ?_, ?_, ?_, ?_⟩
                  · intro r hr
                    simp only [List.mem_append, List.mem_cons] at hr
                    rcases hr with h' | h' | h'
                    · obtain ⟨k, hk1, hk2, hk3⟩ := r2 r h'
                      exact ⟨k, by omega, by omega, hk3⟩
                    · cases h'
                    · obtain ⟨k, hk1, hk2, hk3⟩ := a3 r h'
                      exact ⟨k, by omega, by omega, hk3⟩
                  · intro r t hr
                    simp only [List.mem_append, List.mem_cons] at hr
                    rcases hr with h' | h' | h'
                    · obtain ⟨k, hk1, hk2, hk3⟩ := r3 r t h'
                      exact Or.inr ⟨k, by omega, by omega, hk3⟩
                    · cases h'
                    · rcases a4 r t h' with h'' | ⟨k, hk1, hk2, hk3⟩
                      · exact Or.inl h''
                      · exact Or.inr ⟨k, by omega, by omega, hk3⟩
                  · intro hall
                    rw [List.all_cons, hna, Bool.true_and] at hall
                    intro r t hr
                    simp only [List.mem_append, List.mem_cons] at hr
                    rcases hr with h' | h' | h'
                    · obtain ⟨k, hk1, hk2, hk3⟩ := r3 r t h'
                      exact ⟨k, by omega, by omega, hk3⟩
                    · cases h'
                    · obtain ⟨k, hk1, hk2, hk3⟩ := a5 hall r t h'
                      exact ⟨k, by omega, by omega, hk3⟩
                  · intro hall
                    rw [List.all_cons, hna, Bool.true_and] at hall
                    obtain ⟨t, htmem⟩ := a6 hall
                    exact ⟨t, by simp [htmem]⟩


/-- C5: compiling a non-top-level op-node result allocates a fresh value
(`v%d := v.Block.NewValue(Op..., TypeInvalid, nil)`) and returns its name;
if no argument of the node is a type constraint, a `SetType()` derivation
call on the new value is emitted as the very last statement, after all of
the node's child processing, and nowhere else; if a type constraint is
present, no `SetType()` call is emitted for the node and a direct
`.Type =` assignment on it is emitted instead. -/
theorem c5_nested_type_derivation (f : Nat) (rr : Str) (alloc : Nat)
    (st : List Stmt) (al : Nat) (x : Str)
    (h : genResult0 f ('(' :: rr) alloc false = some (st, al, x)) :
    x = vname alloc ∧
    ∃ op args argSt,
      split (rr.dropLast) = some (op :: args) ∧
      (args.all noTypeHead = true →
        st = Stmt.newValue (vname alloc) op :: argSt ++ [Stmt.setTypeCall (vname alloc)] ∧
        Stmt.setTypeCall (vname alloc) ∉ argSt) ∧
      (args.all noTypeHead = false →
        st = Stmt.newValue (vname alloc) op :: argSt ∧
        Stmt.setTypeCall (vname alloc) ∉ st ∧
        ∃ t, Stmt.setTypeField (vname alloc) t ∈ st) := by
  rw [genResult0.eq_def] at h
  dsimp only at h
  rw [if_pos rfl] at h
  rcases f with _ | f
  · cases h
  · dsimp only at h
    by_cases hlen : (('(' : Char) :: rr).length < 2
    · rw [if_pos hlen] at h; cases h
    · rw [if_neg hlen] at h
      rcases hsp : split ((List.drop 1 (('(' : Char) :: rr))).dropLast with _ | ⟨_ | ⟨s0, args⟩⟩
      · rw [hsp] at h; cases h
      · rw [hsp] at h; cases h
      · rw [hsp] at h
        simp only [Bool.false_eq_true, if_false] at h
        rcases hA : genResultArgs f args (vname alloc) (alloc + 1) true with _ | ⟨st2, al2, nt2⟩
        · rw [hA] at h; cases h
        · rw [hA] at h
          injection h with h2
          injection h2 with hst h3
          injection h3 with hal hx
          subst hst; subst hal
          obtain ⟨a1, a2, a3, a4, a5, a6⟩ :=
            (genResultRefs f).2 args (vname alloc) (alloc + 1) true st2 al2 nt2 hA
          rw [Bool.true_and] at a2
          have hnomem : Stmt.setTypeCall (vname alloc) ∉ st2 := by
            intro hmem
            obtain ⟨k, hk1, hk2, hk3⟩ := a3 (vname alloc) hmem
            have := vname_inj alloc k hk3
            omega
          refine ⟨hx.symm, s0, args, st2, ?_, ?_, ?_⟩
          · rw [List.drop_succ_cons, List.drop_zero] at hsp
            exact hsp
          · intro hall
            rw [a2, hall]
            exact ⟨by simp, hnomem⟩
          · intro hall
            rw [a2, hall]
            refine ⟨by simp, ?_, ?_⟩
            · intro hmem
              simp only [Bool.false_eq_true, if_false, List.append_nil, List.mem_cons] at hmem
              rcases hmem with h' | h'
              · cases h'
              · exact hnomem h'
            · obtain ⟨t, ht⟩ := a6 hall
              refine ⟨t, ?_⟩
              simp only [Bool.false_eq_true, if_false, List.append_nil, List.mem_cons]
              exact Or.inr ht

/-- Witness for C5 at the result expression `(Neg y)` compiled non-top
with counter 0: the emitted code is `v0 := NewValue(OpNeg, TypeInvalid,
nil); v0.AddArg(y); v0.SetType()`. -/
theorem c5_witness :
    vname 0 = vname 0 ∧
    ∃ op args argSt,
      split ("Neg y)".data.dropLast) = some (op :: args) ∧
      (args.all noTypeHead = true →
        [Stmt.newValue (vname 0) "Neg".data, Stmt.addArg (vname 0) "y".data,
         Stmt.setTypeCall (vname 0)] =
          Stmt.newValue (vname 0) op :: argSt ++ [Stmt.setTypeCall (vname 0)] ∧
        Stmt.setTypeCall (vname 0) ∉ argSt) ∧
      (args.all noTypeHead = false →
        [Stmt.newValue (vname 0) "Neg".data, Stmt.addArg (vname 0) "y".data,
         Stmt.setTypeCall (vname 0)] =
          Stmt.newValue (vname 0) op :: argSt ∧
        Stmt.setTypeCall (vname 0) ∉
          [Stmt.newValue (vname 0) "Neg".data, Stmt.addArg (vname 0) "y".data,
           Stmt.setTypeCall (vname 0)] ∧
        ∃ t, Stmt.setTypeField (vname 0) t ∈
          [Stmt.newValue (vname 0) "Neg".data, Stmt.addArg (vname 0) "y".data,
           Stmt.setTypeCall (vname 0)]) :=
  c5_nested_type_derivation 10 "Neg y)".data 0
    [Stmt.newValue (vname 0) "Neg".data, Stmt.addArg (vname 0) "y".data,
     Stmt.setTypeCall (vname 0)] 1 (vname 0) (by decide)

/-- C6: compiling a result expression whose top-level node is an op-node
reuses the matched value `v` (the returned reference is `v`), emits first —
in this order — the tag overwrite, the aux clear and the children reset,
then the child statements; and no `SetType()` derivation call on `v` is
ever emitted, while a `.Type =` assignment on `v` appears only when a type
constraint argument is present. -/
theorem c6_top_level_mutation (f : Nat) (rr : Str) (alloc : Nat)
    (st : List Stmt) (al : Nat) (x : Str)
    (h : genResult0 f ('(' :: rr) alloc true = some (st, al, x)) :
    x = "v".data ∧
    ∃ op args argSt,
      split (rr.dropLast) = some (op :: args) ∧
      st = Stmt.setOpV op :: Stmt.clearAuxV :: Stmt.resetArgsV :: argSt ∧
      (∀ r, Stmt.setTypeCall r ∈ st → r ≠ "v".data) ∧
      (args.all noTypeHead = true → ∀ t, Stmt.setTypeField "v".data t ∉ argSt) := by
  rw [genResult0.eq_def] at h
  dsimp only at h
  rw [if_pos rfl] at h
  rcases f with _ | f
  · cases h
  · dsimp only at h
    by_cases hlen : (('(' : Char) :: rr).length < 2
    · rw [if_pos hlen] at h; cases h
    · rw [if_neg hlen] at h
      rcases hsp : split ((List.drop 1 (('(' : Char) :: rr))).dropLast with _ | ⟨_ | ⟨s0, args⟩⟩
      · rw [hsp] at h; cases h
      · rw [hsp] at h; cases h
      · rw [hsp] at h
        simp only [eq_self_iff_true, if_true] at h
        rcases hA : genResultArgs f args "v".data alloc false with _ | ⟨st2, al2, nt2⟩
        · rw [hA] at h; cases h
        · rw [hA] at h
          injection h with h2
          injection h2 with hst h3
          injection h3 with hal hx
          subst hst; subst hal
          obtain ⟨a1, a2, a3, a4, a5, a6⟩ :=
            (genResultRefs f).2 args "v".data alloc false st2 al2 nt2 hA
          rw [Bool.false_and] at a2
          refine ⟨hx.symm, s0, args, st2, ?_, ?_, ?_, ?_⟩
          · rw [List.drop_succ_cons, List.drop_zero] at hsp
            exact hsp
          · rw [a2]
            simp
          · intro r hr
            rw [a2] at hr
            simp only [Bool.false_eq_true, if_false, List.append_nil, List.append_assoc,
              List.mem_append, List.mem_cons] at hr
            rcases hr with (h' | h' | h' | h') | h'
            · cases h'
            · cases h'
            · cases h'
            · exact absurd h' (List.not_mem_nil _)
            · obtain ⟨k, hk1, hk2, hk3⟩ := a3 r h'
              rw [hk3]
              exact vname_ne_v k
          · intro hall t hmem
            obtain ⟨k, hk1, hk2, hk3⟩ := a5 hall "v".data t hmem
            exact vname_ne_v k hk3.symm

/-- Witness for C6 at the result expression `(Add x (Neg y))` compiled at
top level (the spec §8 scenario): the matched value is mutated in place
(`v.Op = OpAdd; v.Aux = nil; v.Args = v.argstorage[:0]`), children are
appended in order, the nested `Neg` gets its own `SetType()`, and no
type derivation is emitted for `v`. -/
theorem c6_witness :
    "v".data = "v".data ∧
    ∃ op args argSt,
      split ("Add x (Neg y))".data.dropLast) = some (op :: args) ∧
      [Stmt.setOpV "Add".data, Stmt.clearAuxV, Stmt.resetArgsV,
       Stmt.addArg "v".data "x".data,
       Stmt.newValue (vname 0) "Neg".data, Stmt.addArg (vname 0) "y".data,
       Stmt.setTypeCall (vname 0), Stmt.addArg "v".data (vname 0)] =
        Stmt.setOpV op :: Stmt.clearAuxV :: Stmt.resetArgsV :: argSt ∧
      (∀ r, Stmt.setTypeCall r ∈
        [Stmt.setOpV "Add".data, Stmt.clearAuxV, Stmt.resetArgsV,
         Stmt.addArg "v".data "x".data,
         Stmt.newValue (vname 0) "Neg".data, Stmt.addArg (vname 0) "y".data,
         Stmt.setTypeCall (vname 0), Stmt.addArg "v".data (vname 0)] → r ≠ "v".data) ∧
      (args.all noTypeHead = true → ∀ t, Stmt.setTypeField "v".data t ∉ argSt) :=
  c6_top_level_mutation 10 "Add x (Neg y))".data 0
    [Stmt.setOpV "Add".data, Stmt.clearAuxV, Stmt.resetArgsV,
     Stmt.addArg "v".data "x".data,
     Stmt.newValue (vname 0) "Neg".data, Stmt.addArg (vname 0) "y".data,
     Stmt.setTypeCall (vname 0), Stmt.addArg "v".data (vname 0)] 1 "v".data (by decide)


/-- One step of `strLeB` on two nonempty strings. -/
theorem strLeB_cons (x y : Char) (xs ys : Str) :
    strLeB (x :: xs) (y :: ys) =
      if x.toNat < y.toNat then true
      else if y.toNat < x.toNat then false else strLeB xs ys := by
  rw [strLeB.eq_def]

/-- `strLeB` is total. -/
theorem strLeB_total : ∀ a b : Str, (strLeB a b || strLeB b a) = true := by
  intro a
  induction a with
  | nil => intro b; simp [strLeB]
  | cons x xs ih =>
    intro b
    cases b with
    | nil => simp [strLeB]
    | cons y ys =>
      rw [strLeB_cons, strLeB_cons]
      by_cases h1 : x.toNat < y.toNat
      · simp [h1]
      · by_cases h2 : y.toNat < x.toNat
        · simp [h1, h2]
        · simp only [h1, h2, if_false]
          simpa using ih ys

/-- `strLeB` is transitive. -/
theorem strLeB_trans : ∀ a b c : Str, strLeB a b = true → strLeB b c = true →
    strLeB a c = true := by
  intro a
  induction a with
  | nil => intro b c _ _; simp [strLeB]
  | cons x xs ih =>
    intro b c hab hbc
    cases b with
    | nil => rw [strLeB.eq_def] at hab; cases hab
    | cons y ys =>
      cases c with
      | nil => rw [strLeB.eq_def] at hbc; cases hbc
      | cons z zs =>
        rw [strLeB_cons] at hab hbc ⊢
        by_cases h1 : x.toNat < y.toNat <;> by_cases h2 : y.toNat < z.toNat
        · rw [if_pos (by omega : x.toNat < z.toNat)]
        · simp only [h2, if_false] at hbc
          by_cases h3 : z.toNat < y.toNat
          · simp [h3] at hbc
          · rw [if_pos (by omega : x.toNat < z.toNat)]
        · simp only [h1, if_false] at hab
          by_cases h3 : y.toNat < x.toNat
          · simp [h3] at hab
          · rw [if_pos (by omega : x.toNat < z.toNat)]
        · simp only [h1, if_false] at hab
          simp only [h2, if_false] at hbc
          by_cases h3 : y.toNat < x.toNat
          · simp [h3] at hab
          · by_cases h4 : z.toNat < y.toNat
            · simp [h4] at hbc
            · simp only [h3, if_false] at hab
              simp only [h4, if_false] at hbc
              have hxz : ¬x.toNat < z.toNat := by omega
              have hzx : ¬z.toNat < x.toNat := by omega
              rw [if_neg hxz, if_neg hzx]
              exact ih ys zs hab hbc

/-- Looking a key up after one `addRule` insertion. -/
theorem lookup_addRule (m : List (Str × List Str)) (k r op : Str) :
    List.lookup op (addRule m k r) =
      if op = k then some (((List.lookup op m).getD []) ++ [r])
      else List.lookup op m := by
  induction m with
  | nil =>
    by_cases h : op = k
    · subst h
      simp [addRule, List.lookup]
    · have hbeq : (op == k) = false := beq_eq_false_iff_ne.mpr h
      rw [if_neg h]
      simp [addRule, List.lookup, hbeq]
  | cons p t ih =>
    obtain ⟨k0, rs0⟩ := p
    by_cases hk : k0 = k
    · subst hk
      by_cases h : op = k0
      · subst h
        simp [addRule, List.lookup]
      · have hbeq : (op == k0) = false := beq_eq_false_iff_ne.mpr h
        rw [if_neg h]
        simp [addRule, List.lookup, hbeq]
    · simp only [addRule, if_neg hk]
      by_cases h : op = k0
      · have hbeq : (op == k0) = true := beq_iff_eq.mpr h
        have hopk : ¬op = k := fun hbad => hk (h.symm.trans hbad)
        rw [if_neg hopk]
        simp [List.lookup, hbeq]
      · have hbeq : (op == k0) = false := beq_eq_false_iff_ne.mpr h
        simp only [List.lookup, hbeq]
        exact ih

/-- `addRule` keeps the key list unchanged when the key is present and
appends it otherwise. -/
theorem addRule_keys (m : List (Str × List Str)) (k r : Str) :
    (addRule m k r).map Prod.fst =
      if k ∈ m.map Prod.fst then m.map Prod.fst else m.map Prod.fst ++ [k] := by
  induction m with
  | nil => simp [addRule]
  | cons p t ih =>
    obtain ⟨k0, rs0⟩ := p
    by_cases hk : k0 = k
    · subst hk
      simp [addRule]
    · simp only [addRule, if_neg hk, List.map_cons, ih]
      by_cases hmem : k ∈ t.map Prod.fst
      · simp [hmem, Ne.symm hk]
      · simp [hmem, Ne.symm hk]

/-- The grouped rule keys are distinct. -/
theorem readRules_keys_nodup (lines : List Str) :
    ((readRules lines).map Prod.fst).Nodup := by
  unfold readRules
  generalize processedLines lines = ls
  suffices h : ∀ (ls : List Str) (m : List (Str × List Str)), (m.map Prod.fst).Nodup →
      ((ls.foldl (fun m l => addRule m (keyOf l) l) m).map Prod.fst).Nodup by
    exact h ls [] (by simp)
  intro ls
  induction ls with
  | nil => intro m hm; exact hm
  | cons l t ih =>
    intro m hm
    rw [List.foldl_cons]
    apply ih
    rw [addRule_keys]
    by_cases hmem : keyOf l ∈ m.map Prod.fst
    · simpa [hmem] using hm
    · simp only [hmem, if_false]
      simp [List.nodup_append, hm, hmem]


/-- Folding `addRule` over lines accumulates, per key, exactly the lines
with that key, in order. -/
theorem foldl_addRule_lookup : ∀ (ls : List Str) (m : List (Str × List Str)) (op : Str),
    List.lookup op (ls.foldl (fun m l => addRule m (keyOf l) l) m) =
      match List.lookup op m with
      | some rs => some (rs ++ ls.filter (fun l => keyOf l == op))
      | none =>
        if ls.filter (fun l => keyOf l == op) = [] then none
        else some (ls.filter (fun l => keyOf l == op)) := by
  intro ls
  induction ls with
  | nil =>
    intro m op
    cases h : List.lookup op m <;> simp [h]
  | cons l t ih =>
    intro m op
    rw [List.foldl_cons, ih (addRule m (keyOf l) l) op, lookup_addRule]
    by_cases hk : op = keyOf l
    · rw [if_pos hk]
      have hKey : (keyOf l == op) = true := beq_iff_eq.mpr hk.symm
      cases h : List.lookup op m with
      | some rs => simp [h, List.filter_cons, hKey]
      | none => simp [h, List.filter_cons, hKey]
    · rw [if_neg hk]
      have hKey : (keyOf l == op) = false :=
        beq_eq_false_iff_ne.mpr (fun hbad => hk hbad.symm)
      cases h : List.lookup op m with
      | some rs => simp [h, List.filter_cons, hKey]
      | none => simp [h, List.filter_cons, hKey]

/-- Looking up a key in the grouped rules yields exactly the processed
lines carrying that key, in file order (or nothing). -/
theorem readRules_lookup (lines : List Str) (op : Str) :
    List.lookup op (readRules lines) =
      if (processedLines lines).filter (fun l => keyOf l == op) = [] then none
      else some ((processedLines lines).filter (fun l => keyOf l == op)) := by
  unfold readRules
  rw [foldl_addRule_lookup]
  simp [List.lookup]

/-- Compiled rules keep their source text, in order. -/
theorem compileList_rules (fuel : Nat) : ∀ (rules : List Str) (n : Nat) (crs : List CompiledRule) (n' : Nat),
    compileList fuel rules n = some (crs, n') → crs.map CompiledRule.rule = rules := by
  intro rules
  induction rules with
  | nil =>
    intro n crs n' h
    rw [compileList.eq_def] at h
    injection h with h2
    injection h2 with h3 h4
    rw [← h3]
    simp
  | cons r rs ih =>
    intro n crs n' h
    rw [compileList.eq_def] at h
    dsimp only at h
    rcases hcr : compileRule fuel r n with _ | cr
    · rw [hcr] at h; cases h
    · rw [hcr] at h
      rcases hrest : compileList fuel rs (n + 1) with _ | ⟨crs2, n2⟩
      · rw [hrest] at h; cases h
      · rw [hrest] at h
        simp only [Option.map_some'] at h
        injection h with h2
        injection h2 with h3 h4
        rw [← h3]
        simp only [List.map_cons, ih (n + 1) crs2 n2 hrest]
        have : cr.rule = r := by
          unfold compileRule at hcr
          rcases hsr : splitRule r with _ | ⟨m0, c0, r0⟩
          · rw [hsr] at hcr; cases hcr
          · rw [hsr] at hcr
            dsimp only at hcr
            rcases hgm : genMatch fuel m0 (failFor n) with _ | ⟨mst, menv⟩ <;>
              rcases hgr : genResult fuel r0 with _ | ⟨rst, nn, rx⟩ <;>
                rw [hgm, hgr] at hcr <;> cases hcr <;> rfl
        rw [this]

/-- `compileGroups` emits the groups in the given key order, each group
compiled from the looked-up rules. -/
theorem compileGroups_spec (fuel : Nat) (oprules : List (Str × List Str)) :
    ∀ (ops : List Str) (n : Nat) (groups : List (Str × List CompiledRule)),
    compileGroups fuel oprules ops n = some groups →
      groups.map Prod.fst = ops ∧
      ∀ op crs, (op, crs) ∈ groups → ∃ rules,
        List.lookup op oprules = some rules ∧ crs.map CompiledRule.rule = rules := by
  intro ops
  induction ops with
  | nil =>
    intro n groups h
    rw [compileGroups.eq_def] at h
    injection h with h2
    rw [← h2]
    exact ⟨rfl, by intro op crs hmem; cases hmem⟩
  | cons op0 ops ih =>
    intro n groups h
    rw [compileGroups.eq_def] at h
    dsimp only at h
    rcases hlk : List.lookup op0 oprules with _ | rules
    · rw [hlk] at h; cases h
    · rw [hlk] at h
      dsimp only at h
      rcases hcl : compileList fuel rules n with _ | ⟨crs0, n2⟩
      · rw [hcl] at h; cases h
      · rw [hcl] at h
        dsimp only at h
        rcases hcg : compileGroups fuel oprules ops n2 with _ | groups2
        · rw [hcg] at h; cases h
        · rw [hcg] at h
          simp only [Option.map_some'] at h
          injection h with h2
          rw [← h2]
          obtain ⟨ih1, ih2⟩ := ih n2 groups2 hcg
          refine ⟨by simp [ih1], ?_⟩
          intro op crs hmem
          rcases List.mem_cons.mp hmem with heq | htail
          · injection heq with e1 e2
            subst e1
            refine ⟨rules, hlk, ?_⟩
            rw [e2]
            exact compileList_rules fuel rules n crs0 n2 hcl
          · exact ih2 op crs htail

/-- With distinct group keys, `find?` locates exactly the member group. -/
theorem find_group (groups : List (Str × List CompiledRule)) (tag : Str)
    (crs : List CompiledRule) (hnd : (groups.map Prod.fst).Nodup)
    (hmem : (tag, crs) ∈ groups) :
    groups.find? (fun g => g.1 == tag) = some (tag, crs) := by
  induction groups with
  | nil => cases hmem
  | cons g t ih =>
    obtain ⟨k0, crs0⟩ := g
    rcases List.mem_cons.mp hmem with heq | htail
    · injection heq with e1 e2
      subst e1; subst e2
      simp [List.find?]
    · have hk0 : k0 ≠ tag := by
        intro hbad
        subst hbad
        have hin : k0 ∈ t.map Prod.fst :=
          List.mem_map.mpr ⟨(k0, crs), htail, rfl⟩
        rw [List.map_cons, List.nodup_cons] at hnd
        exact hnd.1 hin
      have hbeq : (k0 == tag) = false := beq_eq_false_iff_ne.mpr hk0
      rw [List.find?]
      simp only [hbeq]
      rw [List.map_cons, List.nodup_cons] at hnd
      exact ih hnd.2 htail

/-- `find?` returns the first passing element. -/
theorem find_first (pred : CompiledRule → Bool) :
    ∀ (l : List CompiledRule) (k : Nat) (r : CompiledRule),
    l.get? k = some r →
    (∀ j rj, j < k → l.get? j = some rj → pred rj = false) →
    pred r = true → l.find? pred = some r := by
  intro l
  induction l with
  | nil => intro k r hk; simp at hk
  | cons a t ih =>
    intro k r hk hfail hpass
    cases k with
    | zero =>
      simp only [List.get?] at hk
      injection hk with e
      subst e
      rw [List.find?, hpass]
    | succ k =>
      have ha : pred a = false := hfail 0 a (Nat.succ_pos k) rfl
      rw [List.find?, ha]
      exact ih k r hk (fun j rj hj hg => hfail (j + 1) rj (by omega) hg) hpass


/-- C4: the emitter orders the operator-tag groups lexicographically,
keeps each group's rules in rule-file declaration order, and the emitted
dispatch is first-match-wins: on a Term whose tag selects a group, the
first rule whose guards pass (`pred`, abstracting the match/condition
guards of the rule block) is applied and no later rule of any group is
consulted; if no group matches the tag or every rule of the group fails,
the procedure reports no rule applied (`none`, i.e. `return false`). -/
theorem c4_dispatch (fuel : Nat) (lines : List Str)
    (groups : List (Str × List CompiledRule))
    (h : genFile fuel lines = some groups) :
    List.Pairwise (fun a b => strLeB a b = true) (groups.map Prod.fst) ∧
    (∀ op crs, (op, crs) ∈ groups →
      crs.map CompiledRule.rule =
        (processedLines lines).filter (fun l => keyOf l == op)) ∧
    (∀ tag pred crs k r, (tag, crs) ∈ groups → crs.get? k = some r →
      (∀ j rj, j < k → crs.get? j = some rj → pred rj = false) → pred r = true →
      execSwitch groups pred tag = some r) ∧
    (∀ tag pred, (∀ crs, (tag, crs) ∈ groups → ∀ r ∈ crs, pred r = false) →
      execSwitch groups pred tag = none) := by
  unfold genFile at h
  obtain ⟨hmap, hgrp⟩ := compileGroups_spec fuel (readRules lines) _ 0 groups h
  have hnod : (groups.map Prod.fst).Nodup := by
    rw [hmap]
    exact (List.Perm.nodup_iff (List.perm_insertionSort _ _)).mpr (readRules_keys_nodup lines)
  refine ⟨?_, ?_, ?_, ?_⟩
  · rw [hmap]
    haveI : IsTotal Str (fun a b => strLeB a b = true) := ⟨by
      intro a b
      have := strLeB_total a b
      rcases Bool.or_eq_true_iff.mp this with h | h
      · exact Or.inl h
      · exact Or.inr h⟩
    haveI : IsTrans Str (fun a b => strLeB a b = true) := ⟨by
      intro a b c hab hbc
      exact strLeB_trans a b c hab hbc⟩
    exact List.sorted_insertionSort _ _
  · intro op crs hmem
    obtain ⟨rules, hlk, hrules⟩ := hgrp op crs hmem
    rw [readRules_lookup] at hlk
    by_cases hfil : (processedLines lines).filter (fun l => keyOf l == op) = []
    · rw [if_pos hfil] at hlk; cases hlk
    · rw [if_neg hfil] at hlk
      injection hlk with e
      rw [hrules, ← e]
  · intro tag pred crs k r hmem hk hfail hpass
    unfold execSwitch
    rw [find_group groups tag crs hnod hmem]
    exact find_first pred crs k r hk hfail hpass
  · intro tag pred hall
    unfold execSwitch
    rcases hf : groups.find? (fun g => g.1 == tag) with _ | ⟨tag2, crs2⟩
    · rw [hf]
    · rw [hf]
      have htag : tag2 = tag := by
        have := List.find?_some hf
        exact beq_iff_eq.mp this
      have hmem : (tag2, crs2) ∈ groups := List.mem_of_find?_eq_some hf
      subst htag
      have hnone : ∀ x ∈ crs2, ¬(pred x = true) := by
        intro x hx
        rw [hall crs2 hmem x hx]
        simp
      exact List.find?_eq_none.mpr hnone

/-- Witness for C4 on a two-rule file whose groups are `Add` and `Sub`. -/
theorem c4_witness :
    ∃ groups,
      genFile 50 ["(Add x x) -> x".data, "(Sub x y) -> x".data] = some groups ∧
      (List.Pairwise (fun a b => strLeB a b = true) (groups.map Prod.fst) ∧
       (∀ op crs, (op, crs) ∈ groups →
         crs.map CompiledRule.rule =
           (processedLines ["(Add x x) -> x".data, "(Sub x y) -> x".data]).filter
             (fun l => keyOf l == op)) ∧
       (∀ tag pred crs k r, (tag, crs) ∈ groups → crs.get? k = some r →
         (∀ j rj, j < k → crs.get? j = some rj → pred rj = false) → pred r = true →
         execSwitch groups pred tag = some r) ∧
       (∀ tag pred, (∀ crs, (tag, crs) ∈ groups → ∀ r ∈ crs, pred r = false) →
         execSwitch groups pred tag = none)) := by
  have h : ∃ groups,
      genFile 50 ["(Add x x) -> x".data, "(Sub x y) -> x".data] = some groups := by
    cases hg : genFile 50 ["(Add x x) -> x".data, "(Sub x y) -> x".data] with
    | none => exact absurd hg (by decide)
    | some g => exact ⟨g, rfl⟩
  obtain ⟨g, hg⟩ := h
  exact ⟨g, hg, c4_dispatch 50 ["(Add x x) -> x".data, "(Sub x y) -> x".data] g hg⟩


/-- A whitespace character of `split` is not a delimiter: its depth
contribution is zero and it is Unicode whitespace. -/
theorem isWS_facts (c : Char) (h : isWS c = true) :
    isOpenDelim c = false ∧ isCloseDelim c = false ∧ delta c = 0 ∧
      goIsSpace c = true := by
  simp only [isWS, Bool.or_eq_true, decide_eq_true_eq] at h
  rcases h with h | h <;> subst h <;> refine ⟨by decide, by decide, by decide, by decide⟩

/-- A sounding character is not a delimiter and not whitespace. -/
theorem sounding_facts (c : Char) (h : sounding c = true) :
    isOpenDelim c = false ∧ isCloseDelim c = false ∧ isWS c = false ∧ delta c = 0 := by
  simp only [sounding, Bool.and_eq_true, Bool.not_eq_true'] at h
  exact ⟨h.1.1, h.1.2, h.2, by simp [delta, h.1.1, h.1.2]⟩

/-- The two parts of `fieldSpan` reassemble the input. -/
theorem fieldSpan_append : ∀ (l : Str) (d : Int),
    (fieldSpan l d).1 ++ (fieldSpan l d).2 = l := by
  intro l
  induction l with
  | nil => intro d; simp [fieldSpan]
  | cons c rest ih =>
    intro d
    rw [fieldSpan.eq_def]
    dsimp only
    by_cases hws : (isWS c && decide (d = 0)) = true
    · simp [hws]
    · simp only [hws, if_false]
      cases hfs : fieldSpan rest (d + delta c) with
      | mk a b =>
        have := ih (d + delta c)
        rw [hfs] at this
        simpa using this

/-- When `fieldSpan` stops at a separator, the separator is whitespace
and the running depth there is zero. -/
theorem fieldSpan_sep : ∀ (l : Str) (d : Int) (a : Str) (w : Char) (b : Str),
    fieldSpan l d = (a, w :: b) → isWS w = true ∧ d + depthSum a = 0 := by
  intro l
  induction l with
  | nil => intro d a w b h; simp [fieldSpan] at h
  | cons c rest ih =>
    intro d a w b h
    rw [fieldSpan.eq_def] at h
    dsimp only at h
    by_cases hws : (isWS c && decide (d = 0)) = true
    · rw [if_pos hws] at h
      injection h with h1 h2
      injection h2 with h3 h4
      simp only [Bool.and_eq_true, decide_eq_true_eq] at hws
      subst h3
      rw [← h1]
      exact ⟨hws.1, by simpa [depthSum] using hws.2⟩
    · rw [if_neg hws] at h
      cases hfs : fieldSpan rest (d + delta c) with
      | mk a2 b2 =>
        rw [hfs] at h
        dsimp only at h
        injection h with h1 h2
        subst h1
        obtain ⟨hw, hd⟩ := ih (d + delta c) a2 w b (h2 ▸ hfs)
        refine ⟨hw, ?_⟩
        rw [depthSum_cons]
        omega

/-- A field that closes the depth it opened cannot end in whitespace. -/
theorem fieldSpan_last_not_ws : ∀ (l : Str) (d : Int) (a : Str) (b : Str),
    fieldSpan l d = (a, b) → d + depthSum a = 0 →
    ∀ z, a.getLast? = some z → isWS z = false := by
  intro l
  induction l with
  | nil =>
    intro d a b h _ z hz
    rw [fieldSpan.eq_def] at h
    injection h with h1 h2
    rw [← h1] at hz
    cases hz
  | cons c rest ih =>
    intro d a b h hd z hz
    rw [fieldSpan.eq_def] at h
    dsimp only at h
    by_cases hws : (isWS c && decide (d = 0)) = true
    · rw [if_pos hws] at h
      injection h with h1 h2
      rw [← h1] at hz
      cases hz
    · rw [if_neg hws] at h
      cases hfs : fieldSpan rest (d + delta c) with
      | mk a2 b2 =>
        rw [hfs] at h
        dsimp only at h
        injection h with h1 h2
        subst h1
        rcases a2 with _ | ⟨y, ys⟩
        · rw [List.getLast?_singleton] at hz
          injection hz with hz1
          rw [hz1] at hws hd
          by_cases hwz : isWS z = true
          · exfalso
            have hdelta : delta z = 0 := (isWS_facts z hwz).2.2.1
            rw [depthSum_cons] at hd
            simp only [depthSum, List.map_nil, List.sum_nil, hdelta] at hd
            have hd0 : d = 0 := by omega
            simp [hwz, hd0] at hws
          · simpa using hwz
        · have hz' : (y :: ys).getLast? = some z := by
            rw [List.getLast?_cons_cons] at hz
            exact hz
          refine ih (d + delta c) (y :: ys) b2 hfs ?_ z hz'
          rw [depthSum_cons] at hd
          omega


/-- Shifting the entry depth through one character. -/
theorem depth_shift (d : Int) (c : Char) (a : Str) :
    d + depthSum (c :: a) = (d + delta c) + depthSum a := by
  rw [depthSum_cons]
  ring

/-- A whole-string field with no separator: the scan completes with the
accumulated depth and a set `nonsp` flag (the field contains a sounding
character, or the flag was already set). -/
theorem scan_fieldSpan_inr : ∀ (l : Str) (d : Int) (ns : Bool) (a : Str),
    fieldSpan l d = (a, []) → (ns || a.any sounding) = true →
    scan l d ns = .inr (d + depthSum a, true) := by
  intro l
  induction l with
  | nil =>
    intro d ns a hfs hns
    rw [fieldSpan.eq_def] at hfs
    injection hfs with h1 h2
    subst h1
    simp only [List.any_nil, Bool.or_false] at hns
    subst hns
    simp [scan, depthSum]
  | cons c rest ih =>
    intro d ns a hfs hns
    rw [fieldSpan.eq_def] at hfs
    dsimp only at hfs
    by_cases hws : (isWS c && decide (d = 0)) = true
    · rw [if_pos hws] at hfs
      injection hfs with h1 h2
      cases h2
    · rw [if_neg hws] at hfs
      cases hfs2 : fieldSpan rest (d + delta c) with
      | mk a2 b2 =>
        rw [hfs2] at hfs
        dsimp only at hfs
        injection hfs with h1 h2
        subst h1
        subst h2
        rw [scan.eq_def]
        by_cases ho : isOpenDelim c = true
        · have hdel : delta c = 1 := by simp [delta, ho]
          have hsc : sounding c = false := by simp [sounding, ho]
          have hns2 : (ns || a2.any sounding) = true := by
            simpa [List.any_cons, hsc] using hns
          rw [hdel] at hfs2
          simp only [ho, if_true]
          rw [ih (d + 1) ns a2 hfs2 hns2]
          dsimp only
          rw [show d + 1 + depthSum a2 = d + depthSum (c :: a2) from by
            rw [depthSum_cons, hdel]; ring]
        · by_cases hc : isCloseDelim c = true
          · have hdel : delta c = -1 := by simp [delta, ho, hc]
            have hsc : sounding c = false := by simp [sounding, hc]
            have hns2 : (ns || a2.any sounding) = true := by
              simpa [List.any_cons, hsc] using hns
            rw [hdel] at hfs2
            rw [show (d + -1 : Int) = d - 1 from by ring] at hfs2
            simp only [ho, hc, if_true, if_false, Bool.false_eq_true]
            rw [ih (d - 1) ns a2 hfs2 hns2]
            dsimp only
            rw [show d - 1 + depthSum a2 = d + depthSum (c :: a2) from by
              rw [depthSum_cons, hdel]; ring]
          · by_cases hw : isWS c = true
            · have hdel : delta c = 0 := (isWS_facts c hw).2.2.1
              have hsc : sounding c = false := by simp [sounding, hw]
              have hns2 : (ns || a2.any sounding) = true := by
                simpa [List.any_cons, hsc] using hns
              have hdne : ¬d = 0 := by
                intro hd
                exact hws (by simp [hw, hd])
              rw [hdel] at hfs2
              rw [show (d + 0 : Int) = d from by ring] at hfs2
              simp only [ho, hc, hw, if_true, if_false, Bool.false_eq_true]
              rw [if_neg (by simp [hdne])]
              rw [ih d ns a2 hfs2 hns2]
              dsimp only
              rw [show d + depthSum a2 = d + depthSum (c :: a2) from by
                rw [depthSum_cons, hdel]; ring]
            · have hdel : delta c = 0 := by simp [delta, ho, hc]
              rw [hdel] at hfs2
              rw [show (d + 0 : Int) = d from by ring] at hfs2
              simp only [ho, hc, hw, if_true, if_false, Bool.false_eq_true]
              rw [ih d true a2 hfs2 (by simp)]
              dsimp only
              rw [show d + depthSum a2 = d + depthSum (c :: a2) from by
                rw [depthSum_cons, hdel]; ring]

/-- A field followed by a separator: the scan cuts exactly at the
separator. -/
theorem scan_fieldSpan_inl : ∀ (l : Str) (d : Int) (ns : Bool) (a : Str) (w : Char) (b : Str),
    fieldSpan l d = (a, w :: b) → (ns || a.any sounding) = true →
    scan l d ns = .inl (a, w :: b) := by
  intro l
  induction l with
  | nil =>
    intro d ns a w b hfs hns
    rw [fieldSpan.eq_def] at hfs
    injection hfs with h1 h2
    cases h2
  | cons c rest ih =>
    intro d ns a w b hfs hns
    rw [fieldSpan.eq_def] at hfs
    dsimp only at hfs
    by_cases hws : (isWS c && decide (d = 0)) = true
    · rw [if_pos hws] at hfs
      injection hfs with h1 h2
      simp only [Bool.and_eq_true, decide_eq_true_eq] at hws
      obtain ⟨hwc, hd0⟩ := hws
      obtain ⟨ho, hc, _, _⟩ := isWS_facts c hwc
      have hna : ns = true := by
        rw [← h1] at hns
        simpa using hns
      rw [scan.eq_def]
      simp only [ho, hc, hwc, if_true, if_false, Bool.false_eq_true]
      rw [if_pos (by simp [hd0, hna])]
      rw [← h1, ← h2]
    · rw [if_neg hws] at hfs
      cases hfs2 : fieldSpan rest (d + delta c) with
      | mk a2 b2 =>
        rw [hfs2] at hfs
        dsimp only at hfs
        injection hfs with h1 h2
        subst h1
        subst h2
        rw [scan.eq_def]
        by_cases ho : isOpenDelim c = true
        · have hdel : delta c = 1 := by simp [delta, ho]
          have hsc : sounding c = false := by simp [sounding, ho]
          have hns2 : (ns || a2.any sounding) = true := by
            simpa [List.any_cons, hsc] using hns
          rw [hdel] at hfs2
          simp only [ho, if_true]
          rw [ih (d + 1) ns a2 w b hfs2 hns2]
        · by_cases hc : isCloseDelim c = true
          · have hdel : delta c = -1 := by simp [delta, ho, hc]
            have hsc : sounding c = false := by simp [sounding, hc]
            have hns2 : (ns || a2.any sounding) = true := by
              simpa [List.any_cons, hsc] using hns
            rw [hdel] at hfs2
            rw [show (d + -1 : Int) = d - 1 from by ring] at hfs2
            simp only [ho, hc, if_true, if_false, Bool.false_eq_true]
            rw [ih (d - 1) ns a2 w b hfs2 hns2]
          · by_cases hw : isWS c = true
            · have hdel : delta c = 0 := (isWS_facts c hw).2.2.1
              have hsc : sounding c = false := by simp [sounding, hw]
              have hns2 : (ns || a2.any sounding) = true := by
                simpa [List.any_cons, hsc] using hns
              have hdne : ¬d = 0 := by
                intro hd
                exact hws (by simp [hw, hd])
              rw [hdel] at hfs2
              rw [show (d + 0 : Int) = d from by ring] at hfs2
              simp only [ho, hc, hw, if_true, if_false, Bool.false_eq_true]
              rw [if_neg (by simp [hdne])]
              rw [ih d ns a2 w b hfs2 hns2]
            · have hdel : delta c = 0 := by simp [delta, ho, hc]
              rw [hdel] at hfs2
              rw [show (d + 0 : Int) = d from by ring] at hfs2
              simp only [ho, hc, hw, if_true, if_false, Bool.false_eq_true]
              rw [ih d true a2 w b hfs2 (by simp)]

/-- `dropWhile` is the identity when the first element fails the predicate. -/
theorem dropWhile_head_eq_self (p : Char → Bool) (l : Str)
    (h : ∀ z, l.head? = some z → p z = false) : l.dropWhile p = l := by
  cases l with
  | nil => rfl
  | cons c cs =>
    have hc := h c rfl
    rw [List.dropWhile_cons, if_neg (by simp [hc])]

/-- `trim` is the identity on a string with no boundary whitespace. -/
theorem trim_eq_self (l : Str)
    (h1 : ∀ z, l.head? = some z → goIsSpace z = false)
    (h2 : ∀ z, l.getLast? = some z → goIsSpace z = false) : trim l = l := by
  have hrev : ∀ z, l.reverse.head? = some z → goIsSpace z = false := by
    intro z hz
    rw [List.head?_reverse] at hz
    exact h2 z hz
  unfold trim
  rw [dropWhile_head_eq_self _ _ h1, dropWhile_head_eq_self _ _ hrev,
    List.reverse_reverse]

/-- `trim` absorbs a leading whitespace character. -/
theorem trim_ws_cons (c : Char) (l : Str) (h : goIsSpace c = true) :
    trim (c :: l) = trim l := by
  unfold trim
  rw [List.dropWhile_cons, if_pos h]

/-- `splitGo` does not depend on the fuel once it exceeds the input length. -/
theorem splitGo_fuel : ∀ (n m : Nat) (s : Str), s.length < n → s.length < m →
    splitGo n s = splitGo m s := by
  intro n
  induction n with
  | zero => intro m s h1 h2; omega
  | succ n ih =>
    intro m s h1 h2
    cases m with
    | zero => omega
    | succ m =>
      rw [splitGo.eq_def]
      conv_rhs => rw [splitGo.eq_def]
      dsimp only
      by_cases hs : s = []
      · rw [if_pos hs, if_pos hs]
      · rw [if_neg hs, if_neg hs]
        cases hscan : scan s 0 false with
        | inl p =>
          obtain ⟨pre, post⟩ := p
          dsimp only
          have hlen := (scan_inl s 0 false pre post hscan).2.2.2 rfl
          rw [ih m post (by omega) (by omega)]
        | inr r =>
          obtain ⟨d, ns⟩ := r
          dsimp only

/-- A leading space or tab does not change the outcome of the outer loop. -/
theorem splitGo_ws_cons (n : Nat) (c : Char) (rest : Str) (hw : isWS c = true) :
    splitGo (n + 1) (c :: rest) = splitGo (n + 1) rest := by
  obtain ⟨ho, hc, hdel, hwsp⟩ := isWS_facts c hw
  rw [splitGo.eq_def]
  conv_rhs => rw [splitGo.eq_def]
  dsimp only
  rw [if_neg (by simp : ¬(c :: rest = []))]
  have hscan : scan (c :: rest) 0 false =
      match scan rest 0 false with
      | .inl (pre, post) => .inl (c :: pre, post)
      | .inr r => .inr r := by
    rw [scan.eq_def]
    simp only [ho, hc, hw, if_true, if_false, Bool.false_eq_true]
    rw [if_neg (by simp)]
  rw [hscan]
  by_cases hr : rest = []
  · subst hr
    simp [scan]
  · rw [if_neg hr]
    cases hscan2 : scan rest 0 false with
    | inl p =>
      obtain ⟨pre, post⟩ := p
      dsimp only
      rw [trim_ws_cons c pre hwsp]
    | inr r =>
      obtain ⟨d, ns⟩ := r
      dsimp only
      rw [trim_ws_cons c rest hwsp]

/-- The last element of a list is a member of it. -/
theorem mem_of_getLast?_eq (l : Str) (z : Char) (hz : l.getLast? = some z) : z ∈ l := by
  obtain ⟨hne, hzeq⟩ := List.mem_getLast?_eq_getLast (Option.mem_def.mpr hz)
  rw [hzeq]
  exact List.getLast_mem hne

/-- A string with no depth-zero separator is one field (possibly empty). -/
theorem fieldsAux_fieldSpan_nil : ∀ (l : Str) (d : Int) (cur a : Str),
    fieldSpan l d = (a, []) →
    fieldsAux l d cur = if cur ++ a = [] then [] else [cur ++ a] := by
  intro l
  induction l with
  | nil =>
    intro d cur a h
    rw [fieldSpan.eq_def] at h
    injection h with h1 h2
    rw [fieldsAux.eq_def, ← h1]
    simp
  | cons c rest ih =>
    intro d cur a h
    rw [fieldSpan.eq_def] at h
    dsimp only at h
    rw [fieldsAux.eq_def]
    dsimp only
    by_cases hws : (isWS c && decide (d = 0)) = true
    · rw [if_pos hws] at h
      injection h with h1 h2
      cases h2
    · rw [if_neg hws] at h
      cases hfs2 : fieldSpan rest (d + delta c) with
      | mk a2 b2 =>
        rw [hfs2] at h
        dsimp only at h
        injection h with h1 h2
        subst h2
        rw [if_neg hws]
        rw [ih (d + delta c) (cur ++ [c]) a2 hfs2]
        rw [← h1]
        simp [List.append_assoc]

/-- The first field and the continuation past the first depth-zero
separator. -/
theorem fieldsAux_fieldSpan_cons : ∀ (l : Str) (d : Int) (cur a : Str) (w : Char) (b : Str),
    fieldSpan l d = (a, w :: b) → cur ++ a ≠ [] →
    fieldsAux l d cur = (cur ++ a) :: fieldsAux b 0 [] := by
  intro l
  induction l with
  | nil =>
    intro d cur a w b h hne
    rw [fieldSpan.eq_def] at h
    injection h with h1 h2
    cases h2
  | cons c rest ih =>
    intro d cur a w b h hne
    rw [fieldSpan.eq_def] at h
    dsimp only at h
    rw [fieldsAux.eq_def]
    dsimp only
    by_cases hws : (isWS c && decide (d = 0)) = true
    · rw [if_pos hws] at h
      injection h with h1 h2
      injection h2 with h2a h2b
      rw [if_pos hws]
      have hcur : ¬cur = [] := by
        intro hcn
        apply hne
        rw [hcn, ← h1]
        rfl
      rw [if_neg hcur]
      simp only [Bool.and_eq_true, decide_eq_true_eq] at hws
      rw [← h1, List.append_nil, ← h2b, hws.2]
    · rw [if_neg hws] at h
      cases hfs2 : fieldSpan rest (d + delta c) with
      | mk a2 b2 =>
        rw [hfs2] at h
        dsimp only at h
        injection h with h1 h2
        subst h2
        rw [if_neg hws]
        rw [ih (d + delta c) (cur ++ [c]) a2 w b hfs2 (by simp)]
        rw [← h1]
        simp [List.append_assoc]

/-- A leading depth-zero separator contributes no field. -/
theorem fieldsAux_ws_skip (w : Char) (b : Str) (hw : isWS w = true) :
    fieldsAux (w :: b) 0 [] = fieldsAux b 0 [] := by
  rw [fieldsAux.eq_def]
  simp [hw]

/-- With enough fuel, on a balanced input whose whitespace is only space or
tab and whose top-level fields each contain a sounding character, the outer
loop returns exactly the top-level fields. -/
theorem splitGo_topFields : ∀ (n : Nat) (s : Str), s.length < n → depthSum s = 0 →
    (∀ c ∈ s, goIsSpace c = true → isWS c = true) →
    (∀ f ∈ topFields s, f.any sounding = true) →
    splitGo n s = some (topFields s) := by
  intro n
  induction n with
  | zero => intro s h1 _ _ _; omega
  | succ n ih =>
    intro s hlen hd0 hchars hfields
    cases s with
    | nil => simp [splitGo, topFields, fieldsAux]
    | cons c rest =>
      simp only [List.length_cons] at hlen
      by_cases hw : isWS c = true
      · obtain ⟨ho, hc, hdel, hwsp⟩ := isWS_facts c hw
        have htf : topFields (c :: rest) = topFields rest := by
          unfold topFields
          rw [fieldsAux.eq_def]
          simp [hw]
        have hd0r : depthSum rest = 0 := by
          rw [depthSum_cons, hdel] at hd0
          omega
        rw [splitGo_ws_cons n c rest hw]
        rw [splitGo_fuel (n + 1) n rest (by omega) (by omega)]
        rw [ih rest (by omega) hd0r
          (fun z hz hzw => hchars z (List.mem_cons_of_mem c hz) hzw)
          (fun f hf => hfields f (by rw [htf]; exact hf))]
        rw [htf]
      · cases hfs : fieldSpan (c :: rest) 0 with
        | mk a b =>
          have hsa : a ++ b = c :: rest := by
            have h := fieldSpan_append (c :: rest) 0
            rw [hfs] at h
            exact h
          cases b with
          | nil =>
            have ha : a = c :: rest := by simpa using hsa
            have htf : topFields (c :: rest) = [c :: rest] := by
              unfold topFields
              rw [fieldsAux_fieldSpan_nil (c :: rest) 0 [] a hfs, ha]
              simp
            have hsound : (c :: rest).any sounding = true := by
              apply hfields
              rw [htf]
              simp
            have hscan := scan_fieldSpan_inr (c :: rest) 0 false a hfs
              (by rw [ha]; simpa using hsound)
            rw [ha] at hscan
            have hds : (0 : Int) + depthSum (c :: rest) = 0 := by omega
            rw [hds] at hscan
            have hhead : ∀ z, (c :: rest).head? = some z → goIsSpace z = false := by
              intro z hz
              injection hz with hz1
              rw [← hz1]
              by_cases hcw : goIsSpace c = true
              · exact absurd (hchars c (List.mem_cons_self _ _) hcw) hw
              · simpa using hcw
            have hlast : ∀ z, (c :: rest).getLast? = some z → goIsSpace z = false := by
              intro z hz
              have hzs : isWS z = false :=
                fieldSpan_last_not_ws (c :: rest) 0 a [] hfs
                  (by rw [ha]; omega) z (by rw [ha]; exact hz)
              by_cases hzw : goIsSpace z = true
              · have hmem : z ∈ c :: rest := mem_of_getLast?_eq _ z hz
                rw [hchars z hmem hzw] at hzs
                cases hzs
              · simpa using hzw
            rw [splitGo.eq_def]
            dsimp only
            rw [if_neg (by simp : ¬(c :: rest = []))]
            rw [hscan]
            dsimp only
            rw [if_neg (by simp), if_pos rfl]
            rw [htf, trim_eq_self (c :: rest) hhead hlast]
          | cons w b2 =>
            obtain ⟨hww, hda⟩ := fieldSpan_sep (c :: rest) 0 a w b2 hfs
            have hane : a ≠ [] := by
              intro hA
              rw [hA] at hsa
              injection hsa with h1 h2
              rw [h1] at hww
              exact hw hww
            obtain ⟨a2, ha2⟩ : ∃ a2, a = c :: a2 := by
              cases a with
              | nil => exact absurd rfl hane
              | cons x xs =>
                refine ⟨xs, ?_⟩
                injection hsa with h1 h2
                rw [h1]
            have htf : topFields (c :: rest) = a :: fieldsAux b2 0 [] := by
              unfold topFields
              rw [fieldsAux_fieldSpan_cons (c :: rest) 0 [] a w b2 hfs
                (by simpa using hane)]
              rw [List.nil_append]
            have htf2 : topFields (w :: b2) = fieldsAux b2 0 [] :=
              fieldsAux_ws_skip w b2 hww
            have hsound : a.any sounding = true := by
              apply hfields
              rw [htf]
              exact List.mem_cons_self _ _
            have hscan := scan_fieldSpan_inl (c :: rest) 0 false a w b2 hfs
              (by simpa using hsound)
            have hlen2 : (w :: b2).length < n := by
              have hL := congrArg List.length hsa
              rw [ha2] at hL
              simp only [List.length_append, List.length_cons] at hL
              simp only [List.length_cons]
              omega
            have hd0r : depthSum (w :: b2) = 0 := by
              have hT : depthSum (a ++ w :: b2) = 0 := by rw [hsa]; exact hd0
              rw [depthSum_append] at hT
              omega
            have hchars2 : ∀ z ∈ w :: b2, goIsSpace z = true → isWS z = true := by
              intro z hz hzw
              apply hchars z ?_ hzw
              rw [← hsa]
              exact List.mem_append_right a hz
            have hfields2 : ∀ f ∈ topFields (w :: b2), f.any sounding = true := by
              intro f hf
              apply hfields
              rw [htf]
              rw [htf2] at hf
              exact List.mem_cons_of_mem a hf
            have hhead : ∀ z, a.head? = some z → goIsSpace z = false := by
              intro z hz
              rw [ha2] at hz
              injection hz with hz1
              rw [← hz1]
              by_cases hcw : goIsSpace c = true
              · exact absurd (hchars c (List.mem_cons_self _ _) hcw) hw
              · simpa using hcw
            have hlast : ∀ z, a.getLast? = some z → goIsSpace z = false := by
              intro z hz
              have hzs : isWS z = false :=
                fieldSpan_last_not_ws (c :: rest) 0 a (w :: b2) hfs (by omega) z hz
              by_cases hzw : goIsSpace z = true
              · have hmem : z ∈ c :: rest := by
                  rw [← hsa]
                  exact List.mem_append_left _ (mem_of_getLast?_eq _ z hz)
                rw [hchars z hmem hzw] at hzs
                cases hzs
              · simpa using hzw
            rw [splitGo.eq_def]
            dsimp only
            rw [if_neg (by simp : ¬(c :: rest = []))]
            rw [hscan]
            dsimp only
            rw [ih (w :: b2) hlen2 hd0r hchars2 hfields2]
            rw [htf2, Option.map_some']
            rw [htf, trim_eq_self a hhead hlast]

/-- C9: for a balanced input whose whitespace characters are only space and
tab and each of whose top-level fields contains a non-delimiter
non-whitespace character, `split` succeeds and joining its tokens with
single spaces reproduces the input up to top-level whitespace
normalization (the tokens are exactly the top-level fields). -/
theorem c9_amended (s : Str) (h0 : depthSum s = 0)
    (hchars : ∀ c ∈ s, goIsSpace c = true → isWS c = true)
    (hfields : ∀ f ∈ topFields s, f.any sounding = true) :
    ∃ ts, split s = some ts ∧ List.intercalate [' '] ts = wsNormalize s :=
  ⟨topFields s, splitGo_topFields (s.length + 1) s (Nat.lt_succ_self _) h0 hchars hfields,
    rfl⟩

/-- C9 witness: the rule-shaped input `(Add x y)` is tokenized and the
tokens joined with single spaces reproduce its normalized form. -/
theorem c9_witness : ∃ ts, split "(Add x y)".data = some ts ∧
    List.intercalate [' '] ts = wsNormalize "(Add x y)".data :=
  c9_amended "(Add x y)".data (by decide) (by decide) (by decide)

/-- C9 counterexample to the claim as stated: the input `()` has balanced
delimiters, yet `split` returns no token at all (the `nonsp` flag never
fires), so the reassembled output is empty while the whitespace-normalized
input still reads `()`. -/
theorem c9_counterexample :
    depthSum "()".data = 0 ∧ split "()".data = some [] ∧
      List.intercalate [' '] ([] : List Str) ≠ wsNormalize "()".data := by
  decide

end Rulegen
